import Mathlib

/-!
A verification development for the scrapscript interpreter
(`github.com/Victorystick/scrapscript`).

The Go sources are embedded shallowly:

* `src/types/type.go` — the type registry (`TypeRef`, `Registry`, the
  interning constructors `List`/`Func`/`Enum`/`Record`, `Var`, `Unbound`,
  `Instantiate`, `substitute`).  Go's `map[string]TypeRef` is modelled as a
  key-sorted association list (`MapRef`), which represents Go maps uniquely,
  so `maps.Equal` becomes plain equality.  Go slices become `List`, Go `int`
  packing `tag | index<<4` becomes `t + 16*i` over `Nat` (tags are < 16 and
  indices are non-negative counters, so the encodings agree).
* registry functions that recurse through indices take an explicit `fuel`
  argument and return `Option`; `none` covers both exhausted fuel and the
  places where the Go code would panic on an out-of-range index.
* `src/types/infer.go` — the record-spread rule of `context.record`.
* `src/eval/match.go` and `src/eval/eval.go` — the structural value matcher
  and match-lambda application over the evaluator's value model.
* the validating fetcher of the `yards` package.

The registry's lower-case `unify` (called from `infer.go` and
`type_test.go`) is not among the provided sources; it is modelled from the
specification and clearly marked as such.
-/

namespace Scrap

/-! ## TypeRef encoding (src/types/type.go) -/

/-- The type's tag within a Registry: 0 primitive, 1 list, 2 func, 3 enum,
4 record, 5 unbound, 6 var. -/
abbrev Tag := Nat

def primitiveTag : Tag := 0
def listTag : Tag := 1
def funcTag : Tag := 2
def enumTag : Tag := 3
def recordTag : Tag := 4
def unboundTag : Tag := 5
def varTag : Tag := 6

/-- Efficiently encodes a type reference within a Registry.  Go packs
`int(tag) | (index << 4)`; for tags below 16 and non-negative indices this
is `tag + 16 * index`. -/
abbrev TypeRef := Nat

/-- `makeTypeRef` from type.go: the first 4 bits are the tag, the rest the
index. -/
def makeTypeRef (t : Tag) (index : Nat) : TypeRef := t + 16 * index

/-- The tag half of `TypeRef.extract`. -/
def TypeRef.tagOf (ref : TypeRef) : Tag := ref % 16

/-- The index half of `TypeRef.extract`. -/
def TypeRef.index (ref : TypeRef) : Nat := ref / 16

/-- `IsUnbound` from type.go. -/
def TypeRef.IsUnbound (ref : TypeRef) : Bool := ref.tagOf = unboundTag

/-- `IsVar` from type.go. -/
def TypeRef.IsVar (ref : TypeRef) : Bool := ref.tagOf = varTag

/-- The primitive TypeRefs of type.go; `NeverRef` is the zero value. -/
def NeverRef : TypeRef := makeTypeRef primitiveTag 0
def HoleRef : TypeRef := makeTypeRef primitiveTag 1
def IntRef : TypeRef := makeTypeRef primitiveTag 2
def FloatRef : TypeRef := makeTypeRef primitiveTag 3
def TextRef : TypeRef := makeTypeRef primitiveTag 4
def ByteRef : TypeRef := makeTypeRef primitiveTag 5
def BytesRef : TypeRef := makeTypeRef primitiveTag 6

theorem makeTypeRef_tagOf (t i : Nat) (h : t < 16) : (makeTypeRef t i).tagOf = t := by
  simp [makeTypeRef, TypeRef.tagOf, Nat.add_mul_mod_self_left, Nat.mod_eq_of_lt h]

theorem makeTypeRef_index (t i : Nat) (h : t < 16) : (makeTypeRef t i).index = i := by
  simp [makeTypeRef, TypeRef.index, Nat.add_mul_div_left _ _ (by norm_num : 0 < 16),
    Nat.div_eq_of_lt h]

theorem makeTypeRef_eta (ref : TypeRef) : makeTypeRef ref.tagOf ref.index = ref := by
  simp [makeTypeRef, TypeRef.tagOf, TypeRef.index, Nat.mod_add_div]

theorem makeTypeRef_inj {t i j : Nat} (ht : t < 16) :
    makeTypeRef t i = makeTypeRef t j ↔ i = j := by
  constructor
  · intro h
    have := congrArg TypeRef.index h
    rwa [makeTypeRef_index t i ht, makeTypeRef_index t j ht] at this
  · intro h; rw [h]

/-! ## Registry (src/types/type.go) -/

/-- `FuncRef` from type.go. -/
structure FuncRef where
  Arg : TypeRef
  Result : TypeRef
deriving DecidableEq, Repr

/-- A strict lexicographic order on character lists (by code point), used
only to pick one canonical association-list representation per Go map. -/
def strLtB : List Char → List Char → Bool
  | [], [] => false
  | [], _ :: _ => true
  | _ :: _, [] => false
  | a :: as, b :: bs => a.toNat < b.toNat || (a = b && strLtB as bs)

def strLt (a b : String) : Bool := strLtB a.toList b.toList

/-- Key-sortedness for the association lists standing in for Go's
`map[string]TypeRef`: strictly increasing keys. -/
def SortedKeys (l : List (String × TypeRef)) : Prop :=
  l.Pairwise (fun p q => strLt p.1 q.1)

instance : DecidablePred SortedKeys := fun l => by
  unfold SortedKeys; infer_instance

/-- `MapRef` from type.go (`map[string]TypeRef`), represented canonically as
a key-sorted association list, so that Go's `maps.Equal` is plain equality. -/
def MapRef := { l : List (String × TypeRef) // SortedKeys l }

instance : DecidableEq MapRef := fun a b =>
  decidable_of_iff (a.1 = b.1) Subtype.ext_iff.symm

/-- Map lookup (`m[k]`). -/
def MapRef.get (m : MapRef) (k : String) : Option TypeRef := m.1.lookup k

/-- The key set of the map, as its sorted list of keys. -/
def MapRef.keys (m : MapRef) : List String := m.1.map Prod.fst

/-- Contains the types of a running application (`Registry` from type.go). -/
structure Registry where
  unbound : Nat := 0
  lists : List TypeRef := []
  funcs : List FuncRef := []
  enums : List MapRef := []
  records : List MapRef := []
  vars : List TypeRef := []
deriving DecidableEq

/-- The index of the first element of `ls` equal to `el` — the search loop
inside `findOrAdd`/`findOrAddMap` from type.go. -/
def firstIdx {T : Type} [DecidableEq T] (el : T) : List T → Option Nat
  | [] => none
  | x :: xs =>
    if x = el then some 0
    else (firstIdx el xs).map (· + 1)

/-- `findOrAdd` from type.go: return the TypeRef of the first equal entry,
appending the element if absent.  (`findOrAddMap` is the same function at
`T = MapRef`, since `maps.Equal` is equality of the canonical maps.) -/
def findOrAdd {T : Type} [DecidableEq T] (tg : Tag) (ls : List T) (el : T) :
    List T × TypeRef :=
  match firstIdx el ls with
  | some i => (ls, makeTypeRef tg i)
  | none => (ls ++ [el], makeTypeRef tg ls.length)

/-- `Registry.List` from type.go: the interned TypeRef for a list type. -/
def Registry.List (c : Registry) (ref : TypeRef) : Registry × TypeRef :=
  let (ls, r) := findOrAdd listTag c.lists ref
  ({ c with lists := ls }, r)

/-- `Registry.Func` from type.go. -/
def Registry.Func (c : Registry) (a r : TypeRef) : Registry × TypeRef :=
  let (ls, f) := findOrAdd funcTag c.funcs ⟨a, r⟩
  ({ c with funcs := ls }, f)

/-- `Registry.Enum` from type.go. -/
def Registry.Enum (c : Registry) (ref : MapRef) : Registry × TypeRef :=
  let (ls, r) := findOrAdd enumTag c.enums ref
  ({ c with enums := ls }, r)

/-- `Registry.Record` from type.go. -/
def Registry.Record (c : Registry) (ref : MapRef) : Registry × TypeRef :=
  let (ls, r) := findOrAdd recordTag c.records ref
  ({ c with records := ls }, r)

/-- `Registry.Unbound` from type.go: a fresh unbound TypeRef. -/
def Registry.Unbound (c : Registry) : Registry × TypeRef :=
  ({ c with unbound := c.unbound + 1 }, makeTypeRef unboundTag c.unbound)

/-- `Registry.Var` from type.go: a fresh variable TypeRef, appended to the
side table with payload `NeverRef`. -/
def Registry.Var (c : Registry) : Registry × TypeRef :=
  ({ c with vars := c.vars ++ [NeverRef] }, makeTypeRef varTag c.vars.length)

/-- `Registry.GetList` from type.go (`none` stands for both the `never`
result on a non-list tag and the panic on a dangling index). -/
def Registry.GetList (c : Registry) (ref : TypeRef) : Option TypeRef :=
  if ref.tagOf = listTag then c.lists.get? ref.index else none

/-- `Registry.GetFunc` from type.go. -/
def Registry.GetFunc (c : Registry) (ref : TypeRef) : Option FuncRef :=
  if ref.tagOf = funcTag then c.funcs.get? ref.index else none

/-- `Registry.GetEnum` from type.go. -/
def Registry.GetEnum (c : Registry) (ref : TypeRef) : Option MapRef :=
  if ref.tagOf = enumTag then c.enums.get? ref.index else none

/-- `Registry.GetRecord` from type.go. -/
def Registry.GetRecord (c : Registry) (ref : TypeRef) : Option MapRef :=
  if ref.tagOf = recordTag then c.records.get? ref.index else none

/-! ### Properties of interning -/

theorem firstIdx_some {T : Type} [DecidableEq T] {el : T} {ls : List T} {i : Nat}
    (h : firstIdx el ls = some i) : ls[i]? = some el := by
  induction ls generalizing i with
  | nil => simp [firstIdx] at h
  | cons x xs ih =>
    by_cases hx : x = el
    · simp [firstIdx, hx] at h
      subst h; simp [hx]
    · simp [firstIdx, hx] at h
      obtain ⟨j, hj, rfl⟩ := h
      simpa using ih hj

theorem firstIdx_none {T : Type} [DecidableEq T] {el : T} {ls : List T}
    (h : firstIdx el ls = none) : el ∉ ls := by
  induction ls with
  | nil => simp
  | cons x xs ih =>
    by_cases hx : x = el
    · simp [firstIdx, hx] at h
    · simp [firstIdx, hx] at h
      simp only [List.mem_cons, not_or]
      exact ⟨fun he => hx he.symm, ih h⟩

theorem firstIdx_append_self {T : Type} [DecidableEq T] {el : T} {ls : List T}
    (h : firstIdx el ls = none) : firstIdx el (ls ++ [el]) = some ls.length := by
  induction ls with
  | nil => simp [firstIdx]
  | cons x xs ih =>
    by_cases hx : x = el
    · simp [firstIdx, hx] at h
    · simp [firstIdx, hx] at h ⊢
      simp [ih h]

theorem prefix_getElem?_some {T : Type} {l₁ l₂ : List T} {i : Nat} {x : T}
    (hp : l₁.IsPrefix l₂) (h : l₁[i]? = some x) : l₂[i]? = some x := by
  obtain ⟨t, rfl⟩ := hp
  have hi : i < l₁.length := by
    by_contra hge
    rw [List.getElem?_eq_none (Nat.le_of_not_lt hge)] at h
    exact Option.noConfusion h
  rw [List.getElem?_append, if_pos hi]
  exact h

theorem findOrAdd_found {T : Type} [DecidableEq T] {tg : Tag} {ls : List T} {el : T}
    {i : Nat} (h : firstIdx el ls = some i) :
    findOrAdd tg ls el = (ls, makeTypeRef tg i) := by
  simp [findOrAdd, h]

/-- After `findOrAdd`, the returned reference points at the element, it is the
first occurrence, and the backing array only grew. -/
theorem findOrAdd_spec {T : Type} [DecidableEq T] (tg : Tag) (htg : tg < 16)
    (ls : List T) (el : T) :
    (findOrAdd tg ls el).1[(findOrAdd tg ls el).2.index]? = some el ∧
    firstIdx el (findOrAdd tg ls el).1 = some (findOrAdd tg ls el).2.index ∧
    (findOrAdd tg ls el).2.tagOf = tg ∧
    ls.IsPrefix (findOrAdd tg ls el).1 := by
  unfold findOrAdd
  cases h : firstIdx el ls with
  | some i =>
    refine ⟨?_, ?_, ?_, List.prefix_refl _⟩ <;>
      simp [firstIdx_some h, h, makeTypeRef_index _ _ htg, makeTypeRef_tagOf _ _ htg]
  | none =>
    refine ⟨?_, ?_, ?_, ⟨[el], rfl⟩⟩ <;>
      simp [makeTypeRef_index _ _ htg, makeTypeRef_tagOf _ _ htg,
        firstIdx_append_self h, List.getElem?_concat_length]

/-- Two sequential `findOrAdd` calls return the same reference exactly when
they were given equal elements. -/
theorem findOrAdd_iff {T : Type} [DecidableEq T] (tg : Tag) (htg : tg < 16)
    (ls : List T) (a b : T) :
    ((findOrAdd tg (findOrAdd tg ls a).1 b).2 = (findOrAdd tg ls a).2) ↔ b = a := by
  obtain ⟨hget₁, hfirst₁, htag₁, -⟩ := findOrAdd_spec tg htg ls a
  obtain ⟨hget₂, -, -, hpre₂⟩ := findOrAdd_spec tg htg (findOrAdd tg ls a).1 b
  constructor
  · intro h
    rw [h] at hget₂
    have hget₁' := prefix_getElem?_some hpre₂ hget₁
    rw [hget₂] at hget₁'
    exact Option.some_inj.mp hget₁'
  · intro h
    subst h
    rw [findOrAdd_found hfirst₁]
    conv_rhs => rw [← makeTypeRef_eta (findOrAdd tg ls b).2]
    rw [htag₁]

theorem Registry.List_def (reg : Registry) (a : TypeRef) :
    reg.List a = ({ reg with lists := (findOrAdd listTag reg.lists a).1 },
      (findOrAdd listTag reg.lists a).2) := rfl

theorem Registry.Func_def (reg : Registry) (a r : TypeRef) :
    reg.Func a r = ({ reg with funcs := (findOrAdd funcTag reg.funcs ⟨a, r⟩).1 },
      (findOrAdd funcTag reg.funcs ⟨a, r⟩).2) := rfl

theorem Registry.Enum_def (reg : Registry) (m : MapRef) :
    reg.Enum m = ({ reg with enums := (findOrAdd enumTag reg.enums m).1 },
      (findOrAdd enumTag reg.enums m).2) := rfl

theorem Registry.Record_def (reg : Registry) (m : MapRef) :
    reg.Record m = ({ reg with records := (findOrAdd recordTag reg.records m).1 },
      (findOrAdd recordTag reg.records m).2) := rfl

/-- **C8.** Interning is structural: for every registry, a pair of sequential
calls to `List`, `Func`, `Enum` or `Record` returns equal TypeRefs exactly
when the arguments are equal (the same element ref, the same arg/result
pair, equal tag-to-string maps — `maps.Equal` of Go maps is plain equality
of the canonical key-sorted `MapRef`s); moreover references made by `Enum`
and by `Record` never coincide, their tag bits differing.  Hence two
syntactically identical non-variable types share one reference and TypeRef
equality is reference equality. -/
theorem interning_structural :
    (∀ (reg : Registry) (a b : TypeRef),
      (((reg.List a).1.List b).2 = (reg.List a).2) ↔ b = a) ∧
    (∀ (reg : Registry) (a₁ r₁ a₂ r₂ : TypeRef),
      (((reg.Func a₁ r₁).1.Func a₂ r₂).2 = (reg.Func a₁ r₁).2) ↔
        (a₂ = a₁ ∧ r₂ = r₁)) ∧
    (∀ (reg : Registry) (m₁ m₂ : MapRef),
      (((reg.Enum m₁).1.Enum m₂).2 = (reg.Enum m₁).2) ↔ m₂ = m₁) ∧
    (∀ (reg : Registry) (m₁ m₂ : MapRef),
      (((reg.Record m₁).1.Record m₂).2 = (reg.Record m₁).2) ↔ m₂ = m₁) ∧
    (∀ (reg reg' : Registry) (m m' : MapRef),
      (reg.Enum m).2 ≠ (reg'.Record m').2) := by
  refine ⟨?_, ?_, ?_, ?_, ?_⟩
  · intro reg a b
    simpa [Registry.List_def] using
      findOrAdd_iff listTag (by norm_num [listTag]) reg.lists a b
  · intro reg a₁ r₁ a₂ r₂
    have h := findOrAdd_iff funcTag (by norm_num [funcTag]) reg.funcs
      ⟨a₁, r₁⟩ ⟨a₂, r₂⟩
    simpa [Registry.Func_def, FuncRef.mk.injEq] using h
  · intro reg m₁ m₂
    simpa [Registry.Enum_def] using
      findOrAdd_iff enumTag (by norm_num [enumTag]) reg.enums m₁ m₂
  · intro reg m₁ m₂
    simpa [Registry.Record_def] using
      findOrAdd_iff recordTag (by norm_num [recordTag]) reg.records m₁ m₂
  · intro reg reg' m m' h
    have he := (findOrAdd_spec enumTag (by norm_num [enumTag])
      reg.enums m).2.2.1
    have hr := (findOrAdd_spec recordTag (by norm_num [recordTag])
      reg'.records m').2.2.1
    rw [Registry.Enum_def] at h
    rw [Registry.Record_def] at h
    simp only at h
    rw [h] at he
    rw [he] at hr
    norm_num [enumTag, recordTag] at hr

/-! ## Unification, modelled from the spec

The registry's lower-case `unify` is referenced by the sources
(`infer.go`'s `ensure` calls `c.reg.unify(got, want)`, `type_test.go`'s
`TestUnify_J` calls `reg.unify` and tests `Resolve`/`IsFree`/`bind`), but
its definition is not among the provided source files — only an older,
substitution-returning `Unify` without enum/record cases is.  The
functions below are therefore modelled from the specification's
"Unification algorithm (destructive, via union-find)", steps 1–9.  Fuel
makes the recursion through registry indices well-founded; `none` means
exhausted fuel or a dangling index. -/

/-- Modelled from the spec: `resolve(t)` follows the var → var chain and
returns the representative (the spec's path compression is omitted — it
rewrites the chain but never changes the representative, which is all the
claims below depend on).  A var whose slot holds `NeverRef` is unassigned
and is its own representative. -/
def resolveF : Nat → Registry → TypeRef → Option TypeRef
  | 0, _, _ => none
  | n+1, reg, t =>
    if t.tagOf = varTag then
      match reg.vars[t.index]? with
      | none => none
      | some v => if v = NeverRef then some t else resolveF n reg v
    else some t

mutual
/-- Modelled from the spec's occurs check ("traverse `b'`, fail if `a'`
appears"), mirroring the traversal order of `Registry.traverse` in
type.go: does `a` occur anywhere inside `b`, `b` itself included? -/
def occursF : Nat → Registry → TypeRef → TypeRef → Option Bool
  | 0, _, _, _ => none
  | n+1, reg, a, b => do
    let sub ←
      if b.tagOf = listTag then do
        let el ← reg.lists[b.index]?
        occursF n reg a el
      else if b.tagOf = funcTag then do
        let fn ← reg.funcs[b.index]?
        let x ← occursF n reg a fn.Arg
        let y ← occursF n reg a fn.Result
        pure (x || y)
      else if b.tagOf = enumTag then do
        let m ← reg.enums[b.index]?
        occursListF n reg a (m.1.map Prod.snd)
      else if b.tagOf = recordTag then do
        let m ← reg.records[b.index]?
        occursListF n reg a (m.1.map Prod.snd)
      else pure false
    pure (sub || decide (b = a))

def occursListF : Nat → Registry → TypeRef → List TypeRef → Option Bool
  | 0, _, _, _ => none
  | _+1, _, _, [] => pure false
  | n+1, reg, a, t :: ts => do
    let x ← occursF n reg a t
    let y ← occursListF n reg a ts
    pure (x || y)
end

/-- The failure modes of the spec's `unify`: `cannot unify <a> with <b>`,
`occurs check failed`, and the internal `unexpected unbound var during
unification`. -/
inductive UErr where
  | cannotUnify (a b : TypeRef)
  | occursCheckFailed
  | unexpectedUnbound
deriving DecidableEq, Repr

instance {E A : Type} [DecidableEq E] [DecidableEq A] :
    DecidableEq (Except E A) := fun x y =>
  match x, y with
  | .error e, .error e' =>
    if h : e = e' then isTrue (by rw [h]) else
      isFalse (fun hc => h (by cases hc; rfl))
  | .ok a, .ok a' =>
    if h : a = a' then isTrue (by rw [h]) else
      isFalse (fun hc => h (by cases hc; rfl))
  | .error _, .ok _ => isFalse (fun hc => Except.noConfusion hc)
  | .ok _, .error _ => isFalse (fun hc => Except.noConfusion hc)

mutual
/-- Modelled from the spec: the destructive unification algorithm.

1. resolve both sides; identical representatives succeed;
2./3. a var representative is occurs-checked against the other side and
   then pointed at it;
4. differing kinds fail with `cannot unify`;
5./6. lists unify elementwise, functions arg-then-result (threading the
   registry through the first recursive call);
7./8. enums/records require equal key sets (equal sorted key lists of the
   canonical maps) and unify the payloads pairwise in key order;
9. distinct primitives fail.

Unbound representatives fail with the internal "unexpected unbound var
during unification" error of the spec's error taxonomy (§7). -/
def unifyF : Nat → Registry → TypeRef → TypeRef → Option (Except UErr Registry)
  | 0, _, _, _ => none
  | n+1, reg, a, b => do
    let a' ← resolveF n reg a
    let b' ← resolveF n reg b
    if a' = b' then pure (.ok reg)
    else if a'.tagOf = varTag then do
      let occ ← occursF n reg a' b'
      if occ then pure (.error .occursCheckFailed)
      else if a'.index < reg.vars.length then
        pure (.ok { reg with vars := reg.vars.set a'.index b' })
      else none
    else if b'.tagOf = varTag then do
      let occ ← occursF n reg b' a'
      if occ then pure (.error .occursCheckFailed)
      else if b'.index < reg.vars.length then
        pure (.ok { reg with vars := reg.vars.set b'.index a' })
      else none
    else if a'.tagOf = unboundTag ∨ b'.tagOf = unboundTag then
      pure (.error .unexpectedUnbound)
    else if a'.tagOf ≠ b'.tagOf then
      pure (.error (.cannotUnify a' b'))
    else if a'.tagOf = listTag then do
      let ae ← reg.lists[a'.index]?
      let be ← reg.lists[b'.index]?
      unifyF n reg ae be
    else if a'.tagOf = funcTag then do
      let af ← reg.funcs[a'.index]?
      let bf ← reg.funcs[b'.index]?
      let r₁ ← unifyF n reg af.Arg bf.Arg
      match r₁ with
      | .error e => pure (.error e)
      | .ok reg₁ => unifyF n reg₁ af.Result bf.Result
    else if a'.tagOf = enumTag then do
      let am ← reg.enums[a'.index]?
      let bm ← reg.enums[b'.index]?
      if am.keys = bm.keys then
        unifyPairsF n reg (am.1.map Prod.snd) (bm.1.map Prod.snd)
      else pure (.error (.cannotUnify a' b'))
    else if a'.tagOf = recordTag then do
      let am ← reg.records[a'.index]?
      let bm ← reg.records[b'.index]?
      if am.keys = bm.keys then
        unifyPairsF n reg (am.1.map Prod.snd) (bm.1.map Prod.snd)
      else pure (.error (.cannotUnify a' b'))
    else
      pure (.error (.cannotUnify a' b'))

/-- Unify two payload lists pairwise (the key sets having been checked
equal), threading the registry left to right. -/
def unifyPairsF : Nat → Registry → List TypeRef → List TypeRef →
    Option (Except UErr Registry)
  | 0, _, _, _ => none
  | _+1, reg, [], [] => pure (.ok reg)
  | n+1, reg, x :: xs, y :: ys => do
    let r ← unifyF n reg x y
    match r with
    | .error e => pure (.error e)
    | .ok reg₁ => unifyPairsF n reg₁ xs ys
  | _+1, _, _, _ => none
end

theorem resolveF_nonvar {n : Nat} {reg : Registry} {t : TypeRef}
    (h : ¬ t.tagOf = varTag) : resolveF (n+1) reg t = some t := by
  simp [resolveF, h]

theorem resolveF_unassigned {n : Nat} {reg : Registry} {t : TypeRef}
    (hv : t.tagOf = varTag) (h : reg.vars[t.index]? = some NeverRef) :
    resolveF (n+1) reg t = some t := by
  simp [resolveF, hv, h]

theorem unifyF_enum_step {n : Nat} {reg : Registry} {a b : TypeRef} {ma mb : MapRef}
    (ha : a.tagOf = enumTag) (hb : b.tagOf = enumTag) (hne : a ≠ b)
    (hma : reg.enums[a.index]? = some ma) (hmb : reg.enums[b.index]? = some mb) :
    unifyF (n+2) reg a b =
      if ma.keys = mb.keys then
        unifyPairsF (n+1) reg (ma.1.map Prod.snd) (mb.1.map Prod.snd)
      else some (Except.error (.cannotUnify a b)) := by
  have hav : ¬ a.tagOf = varTag := by rw [ha]; norm_num [enumTag, varTag]
  have hbv : ¬ b.tagOf = varTag := by rw [hb]; norm_num [enumTag, varTag]
  show unifyF (n+1+1) reg a b = _
  rw [unifyF]
  rw [resolveF_nonvar hav, resolveF_nonvar hbv]
  simp only [Option.bind_eq_bind, Option.some_bind, ha, hb, hma, hmb]
  norm_num [enumTag, varTag, unboundTag, listTag, funcTag, recordTag, hne]

theorem unifyF_record_step {n : Nat} {reg : Registry} {a b : TypeRef} {ma mb : MapRef}
    (ha : a.tagOf = recordTag) (hb : b.tagOf = recordTag) (hne : a ≠ b)
    (hma : reg.records[a.index]? = some ma) (hmb : reg.records[b.index]? = some mb) :
    unifyF (n+2) reg a b =
      if ma.keys = mb.keys then
        unifyPairsF (n+1) reg (ma.1.map Prod.snd) (mb.1.map Prod.snd)
      else some (Except.error (.cannotUnify a b)) := by
  have hav : ¬ a.tagOf = varTag := by rw [ha]; norm_num [recordTag, varTag]
  have hbv : ¬ b.tagOf = varTag := by rw [hb]; norm_num [recordTag, varTag]
  show unifyF (n+1+1) reg a b = _
  rw [unifyF]
  rw [resolveF_nonvar hav, resolveF_nonvar hbv]
  simp only [Option.bind_eq_bind, Option.some_bind, ha, hb, hma, hmb]
  norm_num [enumTag, varTag, unboundTag, listTag, funcTag, recordTag, hne]

/-- **C1.** For two resolved, non-identical enum types `a`, `b` (enum and
record refs are their own representatives), `unify(a, b)` succeeds exactly
when their tag sets are equal (equal sorted key lists of the canonical
maps) and the payloads unify pairwise by tag (the registry-threaded
pairwise pass in key order); when the tag sets differ it fails with
`cannot unify`.  The record case is identical over key sets and values.
In particular, unify does not fail for two distinct enum (or record) types
with equal tag/key sets and unifiable payloads. -/
theorem unify_enum_record_pairwise (n : Nat) (reg : Registry) (a b : TypeRef)
    (ma mb : MapRef) :
    (a.tagOf = enumTag → b.tagOf = enumTag → a ≠ b →
      reg.enums[a.index]? = some ma → reg.enums[b.index]? = some mb →
      ((∀ reg', unifyF (n+2) reg a b = some (Except.ok reg') ↔
          (ma.keys = mb.keys ∧
            unifyPairsF (n+1) reg (ma.1.map Prod.snd) (mb.1.map Prod.snd) =
              some (Except.ok reg'))) ∧
       (ma.keys ≠ mb.keys →
          unifyF (n+2) reg a b = some (Except.error (.cannotUnify a b))))) ∧
    (a.tagOf = recordTag → b.tagOf = recordTag → a ≠ b →
      reg.records[a.index]? = some ma → reg.records[b.index]? = some mb →
      ((∀ reg', unifyF (n+2) reg a b = some (Except.ok reg') ↔
          (ma.keys = mb.keys ∧
            unifyPairsF (n+1) reg (ma.1.map Prod.snd) (mb.1.map Prod.snd) =
              some (Except.ok reg'))) ∧
       (ma.keys ≠ mb.keys →
          unifyF (n+2) reg a b = some (Except.error (.cannotUnify a b))))) := by
  constructor
  · intro ha hb hne hma hmb
    have hstep := unifyF_enum_step (n := n) ha hb hne hma hmb
    by_cases hk : ma.keys = mb.keys
    · rw [if_pos hk] at hstep
      exact ⟨fun reg' => by rw [hstep]; simp [hk], fun h => absurd hk h⟩
    · rw [if_neg hk] at hstep
      refine ⟨fun reg' => ?_, fun _ => hstep⟩
      rw [hstep]
      simp [hk]
  · intro ha hb hne hma hmb
    have hstep := unifyF_record_step (n := n) ha hb hne hma hmb
    by_cases hk : ma.keys = mb.keys
    · rw [if_pos hk] at hstep
      exact ⟨fun reg' => by rw [hstep]; simp [hk], fun h => absurd hk h⟩
    · rw [if_neg hk] at hstep
      refine ⟨fun reg' => ?_, fun _ => hstep⟩
      rw [hstep]
      simp [hk]

/-- A concrete registry for exercising enum unification: two distinct
one-tag enums `#a $0` and `#a $1` over two unassigned vars. -/
def mapA6 : MapRef := ⟨[("a", makeTypeRef varTag 0)], by decide⟩

def mapA22 : MapRef := ⟨[("a", makeTypeRef varTag 1)], by decide⟩

def regC1 : Registry :=
  { enums := [mapA6, mapA22], vars := [NeverRef, NeverRef] }

def regC1bound : Registry :=
  { enums := [mapA6, mapA22], vars := [makeTypeRef varTag 1, NeverRef] }

theorem unify_enum_record_pairwise_witness :
    mapA6.keys = mapA22.keys ∧
    makeTypeRef enumTag 0 ≠ makeTypeRef enumTag 1 ∧
    unifyF 4 regC1 (makeTypeRef enumTag 0) (makeTypeRef enumTag 1) =
      some (Except.ok regC1bound) :=
  ⟨by decide, by decide,
    (((unify_enum_record_pairwise 2 regC1 (makeTypeRef enumTag 0)
        (makeTypeRef enumTag 1) mapA6 mapA22).1
      (by decide) (by decide) (by decide) (by decide) (by decide)).1
      regC1bound).mpr ⟨by decide, by decide⟩⟩

theorem resolveF_step_assigned {n : Nat} {reg : Registry} {t v : TypeRef}
    (hv : t.tagOf = varTag) (hg : reg.vars[t.index]? = some v)
    (hne : v ≠ NeverRef) : resolveF (n+1) reg t = resolveF n reg v := by
  simp [resolveF, hv, hg, hne]

theorem resolveF_resolved {n : Nat} {reg : Registry} {b b' : TypeRef}
    (h : resolveF n reg b = some b') (hv : b'.tagOf = varTag) :
    reg.vars[b'.index]? = some NeverRef := by
  induction n generalizing b with
  | zero => simp [resolveF] at h
  | succ n ih =>
    by_cases hbv : b.tagOf = varTag
    · cases hg : reg.vars[b.index]? with
      | none => simp [resolveF, hbv, hg] at h
      | some v =>
        by_cases hvn : v = NeverRef
        · rw [resolveF_unassigned hbv (hvn ▸ hg)] at h
          cases h
          rw [hg, hvn]
        · rw [resolveF_step_assigned hbv hg hvn] at h
          exact ih h
    · rw [resolveF_nonvar hbv] at h
      cases h
      exact absurd hv hbv

theorem TypeRef.eq_of_parts {a b : TypeRef} (ht : a.tagOf = b.tagOf)
    (hi : a.index = b.index) : a = b := by
  rw [← makeTypeRef_eta a, ht, hi, makeTypeRef_eta]

/-- **C2.** For an unassigned type variable `a` and a type `b` other than
`a` (with resolved form `b'` distinct from `a` and from the `never`
sentinel): if `a` occurs anywhere inside `b'`, unification fails with the
`occurs check failed` error; otherwise it succeeds, pointing `a` at `b'`,
so that `a` subsequently resolves to `b'`. -/
theorem unify_var_occurs_check (n : Nat) (reg : Registry) (a b b' : TypeRef)
    (hv : a.tagOf = varTag)
    (hun : reg.vars[a.index]? = some NeverRef)
    (hb : resolveF (n+1) reg b = some b')
    (hne : b' ≠ a) (hnever : b' ≠ NeverRef) :
    (occursF (n+1) reg a b' = some true →
      unifyF (n+2) reg a b = some (Except.error .occursCheckFailed)) ∧
    (occursF (n+1) reg a b' = some false →
      unifyF (n+2) reg a b =
        some (Except.ok { reg with vars := reg.vars.set a.index b' }) ∧
      resolveF (n+3) { reg with vars := reg.vars.set a.index b' } a = some b') := by
  have hra : resolveF (n+1) reg a = some a := resolveF_unassigned hv hun
  have hlen : a.index < reg.vars.length := by
    have := List.getElem?_eq_some.mp hun
    exact this.1
  have hstep : ∀ occ, occursF (n+1) reg a b' = some occ →
      unifyF (n+2) reg a b =
        (if occ then some (Except.error .occursCheckFailed)
         else some (Except.ok { reg with vars := reg.vars.set a.index b' })) := by
    intro occ hocc
    show unifyF (n+1+1) reg a b = _
    rw [unifyF]
    rw [hra, hb]
    simp only [Option.bind_eq_bind, Option.some_bind]
    rw [if_neg (fun h => hne h.symm), if_pos hv, hocc]
    simp only [Option.some_bind]
    cases occ with
    | true => simp
    | false => simp [hlen]
  refine ⟨fun hocc => by rw [hstep true hocc]; simp, fun hocc => ⟨?_, ?_⟩⟩
  · rw [hstep false hocc]; simp
  · have hget : ({ reg with vars := reg.vars.set a.index b' } :
        Registry).vars[a.index]? = some b' := by
      simp only
      rw [List.getElem?_set_self hlen]
    show resolveF (n+2+1) _ a = some b'
    rw [resolveF_step_assigned hv hget hnever]
    by_cases hbv : b'.tagOf = varTag
    · have hbun : reg.vars[b'.index]? = some NeverRef :=
        resolveF_resolved hb hbv
      have hib : b'.index ≠ a.index := by
        intro h
        exact hne (TypeRef.eq_of_parts (hbv.trans hv.symm) h)
      have : ({ reg with vars := reg.vars.set a.index b' } :
          Registry).vars[b'.index]? = some NeverRef := by
        simp only
        rw [List.getElem?_set_ne (fun h => hib h.symm)]
        exact hbun
      exact resolveF_unassigned hbv this
    · exact resolveF_nonvar hbv

def regC2 : Registry := { lists := [makeTypeRef varTag 0], vars := [NeverRef] }

def regC2b : Registry := { vars := [NeverRef] }

theorem unify_var_occurs_check_witness :
    (occursF 2 regC2 (makeTypeRef varTag 0) (makeTypeRef listTag 0) = some true ∧
      unifyF 3 regC2 (makeTypeRef varTag 0) (makeTypeRef listTag 0) =
        some (Except.error .occursCheckFailed)) ∧
    (occursF 2 regC2b (makeTypeRef varTag 0) IntRef = some false ∧
      unifyF 3 regC2b (makeTypeRef varTag 0) IntRef =
        some (Except.ok { regC2b with vars := [IntRef] }) ∧
      resolveF 4 { regC2b with vars := [IntRef] } (makeTypeRef varTag 0) =
        some IntRef) := by
  constructor
  · refine ⟨by decide, ?_⟩
    exact (unify_var_occurs_check 1 regC2 (makeTypeRef varTag 0)
      (makeTypeRef listTag 0) (makeTypeRef listTag 0) (by decide) (by decide)
      (by decide) (by decide) (by decide)).1 (by decide)
  · refine ⟨by decide, ?_⟩
    have h := (unify_var_occurs_check 1 regC2b (makeTypeRef varTag 0)
      IntRef IntRef (by decide) (by decide) (by decide) (by decide)
      (by decide)).2 (by decide)
    exact h

/-! ## Record expressions with a spread (src/types/infer.go, `context.record`) -/

/-- The failure modes of `context.record`'s spread branch, mirroring its
`bail` messages: `cannot spread from non-record type <T>`, `cannot set <k>
not in the base record`, and `type of <k> must be <T>, not <U>`. -/
inductive RecErr where
  | notRecord (rest : TypeRef)
  | missingKey (k : String)
  | wrongType (k : String) (expected actual : TypeRef)
deriving DecidableEq, Repr

/-- The field loop of `context.record` for `{ ..r, k = v, ... }`: each
listed field's inferred type must equal (`actual != expected` in the
source — TypeRef equality, not unification) the spread record's type at
that key, and the key must be present.  The inferred types of the field
sub-expressions are inputs; Go iterates the entry map in unspecified
order, modelled here by list order (which error surfaces first depends on
the order, success does not). -/
def checkSpreadEntries (rec : MapRef) :
    List (String × TypeRef) → Except RecErr Unit
  | [] => .ok ()
  | (k, actual) :: rest =>
    match rec.get k with
    | none => .error (.missingKey k)
    | some expected =>
      if actual ≠ expected then .error (.wrongType k expected actual)
      else checkSpreadEntries rec rest

/-- `context.record`'s spread branch: the spread must resolve to a record
type (`cannot spread from non-record type` otherwise), every listed field
is checked, and the type of the whole expression is the spread's own
type. -/
def recordSpread (reg : Registry) (rest : TypeRef)
    (entries : List (String × TypeRef)) : Except RecErr TypeRef :=
  match reg.GetRecord rest with
  | none => .error (.notRecord rest)
  | some rec =>
    match checkSpreadEntries rec entries with
    | .error e => .error e
    | .ok () => .ok rest

theorem checkSpreadEntries_cons_ok {rec : MapRef} {k : String} {actual : TypeRef}
    {rest : List (String × TypeRef)}
    (h : checkSpreadEntries rec ((k, actual) :: rest) = .ok ()) :
    rec.get k = some actual ∧ checkSpreadEntries rec rest = .ok () := by
  cases hg : rec.get k with
  | none => simp [checkSpreadEntries, hg] at h
  | some expected =>
    by_cases he : actual = expected
    · subst he
      refine ⟨rfl, ?_⟩
      simpa [checkSpreadEntries, hg] using h
    · simp [checkSpreadEntries, hg, he] at h

theorem checkSpreadEntries_ok_iff (rec : MapRef) (es : List (String × TypeRef)) :
    checkSpreadEntries rec es = .ok () ↔ ∀ p ∈ es, rec.get p.1 = some p.2 := by
  induction es with
  | nil => simp [checkSpreadEntries]
  | cons p rest ih =>
    obtain ⟨k, actual⟩ := p
    constructor
    · intro h q hq
      obtain ⟨hk, hrest⟩ := checkSpreadEntries_cons_ok h
      rcases List.mem_cons.mp hq with h1 | h2
      · subst h1
        exact hk
      · exact ih.mp hrest q h2
    · intro h
      have hk : rec.get k = some actual := h (k, actual) (by simp)
      simp only [checkSpreadEntries, hk, ne_eq, not_true_eq_false, if_false]
      exact ih.mpr (fun q hq => h q (List.mem_cons_of_mem _ hq))

theorem checkSpreadEntries_append_ok (rec : MapRef) {pre : List (String × TypeRef)}
    (hpre : ∀ p ∈ pre, rec.get p.1 = some p.2) (es : List (String × TypeRef)) :
    checkSpreadEntries rec (pre ++ es) = checkSpreadEntries rec es := by
  induction pre with
  | nil => rfl
  | cons p rest ih =>
    obtain ⟨k, actual⟩ := p
    have hk : rec.get k = some actual := hpre (k, actual) (by simp)
    rw [List.cons_append]
    simp only [checkSpreadEntries, hk, ne_eq, not_true_eq_false, if_false]
    exact ih (fun q hq => hpre q (List.mem_cons_of_mem _ hq))

/-- **C4.** For a record expression with a spread `{ ..r, k = v }`, given
the inferred types of the spread and of the listed fields: inference fails
with `cannot spread from non-record type` unless the spread's type is a
record; it succeeds exactly when every listed field's key exists in the
spread record's type with exactly the field's inferred type, and then the
type of the whole expression is exactly the spread's type (row-preserving);
an absent key fails with `cannot set <k> not in the base record` and a
disagreeing type with `type of <k> must be <expected>, not <actual>`. -/
theorem record_spread_row_preserving :
    (∀ (reg : Registry) (rest : TypeRef) (entries : List (String × TypeRef)),
      reg.GetRecord rest = none →
      recordSpread reg rest entries = .error (.notRecord rest)) ∧
    (∀ (reg : Registry) (rest : TypeRef) (entries : List (String × TypeRef))
       (rec : MapRef) (v : TypeRef), reg.GetRecord rest = some rec →
      (recordSpread reg rest entries = .ok v ↔
        ((∀ p ∈ entries, rec.get p.1 = some p.2) ∧ v = rest))) ∧
    (∀ (reg : Registry) (rest : TypeRef) (rec : MapRef)
       (pre : List (String × TypeRef)) (k : String) (ty : TypeRef)
       (post : List (String × TypeRef)), reg.GetRecord rest = some rec →
      (∀ p ∈ pre, rec.get p.1 = some p.2) → rec.get k = none →
      recordSpread reg rest (pre ++ (k, ty) :: post) =
        .error (.missingKey k)) ∧
    (∀ (reg : Registry) (rest : TypeRef) (rec : MapRef)
       (pre : List (String × TypeRef)) (k : String) (ty exp : TypeRef)
       (post : List (String × TypeRef)), reg.GetRecord rest = some rec →
      (∀ p ∈ pre, rec.get p.1 = some p.2) → rec.get k = some exp → ty ≠ exp →
      recordSpread reg rest (pre ++ (k, ty) :: post) =
        .error (.wrongType k exp ty)) := by
  refine ⟨?_, ?_, ?_, ?_⟩
  · intro reg rest entries h
    simp [recordSpread, h]
  · intro reg rest entries rec v h
    simp only [recordSpread, h]
    cases hc : checkSpreadEntries rec entries with
    | error e =>
      constructor
      · intro hx; simp at hx
      · rintro ⟨hall, -⟩
        rw [(checkSpreadEntries_ok_iff rec entries).mpr hall] at hc
        exact Except.noConfusion hc
    | ok u =>
      cases u
      rw [checkSpreadEntries_ok_iff] at hc
      constructor
      · intro hx
        have hv : rest = v := by simpa using hx
        exact ⟨hc, hv.symm⟩
      · rintro ⟨-, hv⟩
        simp [hv]
  · intro reg rest rec pre k ty post h hpre hk
    simp only [recordSpread, h, checkSpreadEntries_append_ok rec hpre,
      checkSpreadEntries, hk]
  · intro reg rest rec pre k ty exp post h hpre hk hne
    simp only [recordSpread, h, checkSpreadEntries_append_ok rec hpre,
      checkSpreadEntries, hk, ne_eq, hne, not_false_eq_true, if_true]

def mapRecC4 : MapRef := ⟨[("a", IntRef), ("b", TextRef)], by decide⟩

def regC4 : Registry := { records := [mapRecC4] }

theorem record_spread_row_preserving_witness :
    regC4.GetRecord (makeTypeRef recordTag 0) = some mapRecC4 ∧
    recordSpread regC4 (makeTypeRef recordTag 0) [("b", TextRef)] =
      .ok (makeTypeRef recordTag 0) :=
  ⟨by decide,
    ((record_spread_row_preserving.2.1 regC4 (makeTypeRef recordTag 0)
      [("b", TextRef)] mapRecC4 (makeTypeRef recordTag 0)) (by decide)).mpr
      ⟨by decide, rfl⟩⟩

/-! ## `Registry.Instantiate` (type.go:301-322) and `Registry.substitute`
(type.go:386-428) -/

/-- `Subst` (a list of `Sub{replace, with}` pairs, unnamed source
part_004): the first component is the ref being replaced, the second its
replacement. -/
abbrev Subst := List (TypeRef × TypeRef)

/-- `Subst.binds`: is `target` already a replace-key? -/
def Subst.binds (s : Subst) (target : TypeRef) : Bool :=
  s.any (fun p => p.1 = target)

/-- The lookup loop at the head of `substitute`'s `unboundTag`/`varTag`
cases: the first `Sub` whose `replace` equals the target yields its
`with`. -/
def Subst.find : Subst → TypeRef → Option TypeRef
  | [], _ => none
  | (r, w) :: rest, t => if r = t then some w else Subst.find rest t

/-- `Registry.insertUnbound` (type.go:307-322): collect a fresh `Var` for
each unbound reachable through the top level, list elements and function
arg/result positions.  The `TODO: Other types` in the source is the
absent enum/record case: those tags fall through to the no-op default.
Fuel bounds the recursion; `none` is exhausted fuel or a Go panic
(out-of-range index). -/
def insertUnboundF : Nat → Registry → TypeRef → Subst →
    Option (Registry × Subst)
  | 0, _, _, _ => none
  | n+1, c, target, subst =>
    if target.tagOf = unboundTag then
      if Subst.binds subst target then some (c, subst)
      else
        let (c₁, v) := Registry.Var c
        some (c₁, subst ++ [(target, v)])
    else if target.tagOf = listTag then
      match c.lists.get? target.index with
      | none => none
      | some el => insertUnboundF n c el subst
    else if target.tagOf = funcTag then
      match c.funcs.get? target.index with
      | none => none
      | some fn =>
        match insertUnboundF n c fn.Arg subst with
        | none => none
        | some (c₁, s₁) => insertUnboundF n c₁ fn.Result s₁
    else some (c, subst)

mutual
/-- `Registry.substitute` (type.go:386-428): replace bound unbounds and
vars (pointing a hit var at its replacement in the side table) and
rebuild compound types through the interning constructors, descending
into list, func, enum and record components alike.  Go iterates map
entries in unspecified order; here they are visited in the canonical
(sorted) order.  Fuel bounds the recursion; `none` is exhausted fuel or
a Go panic (out-of-range index). -/
def substituteF : Nat → Registry → TypeRef → Subst →
    Option (Registry × TypeRef)
  | 0, _, _, _ => none
  | n+1, c, target, subst =>
    if target.tagOf = unboundTag then
      match Subst.find subst target with
      | some w => some (c, w)
      | none => some (c, target)
    else if target.tagOf = varTag then
      match Subst.find subst target with
      | some w =>
        if target.index < c.vars.length then
          some ({ c with vars := c.vars.set target.index w }, w)
        else none
      | none => some (c, target)
    else if target.tagOf = listTag then
      match c.lists.get? target.index with
      | none => none
      | some el =>
        match substituteF n c el subst with
        | none => none
        | some (c₁, el') => some (Registry.List c₁ el')
    else if target.tagOf = funcTag then
      match c.funcs.get? target.index with
      | none => none
      | some fn =>
        match substituteF n c fn.Arg subst with
        | none => none
        | some (c₁, a') =>
          match substituteF n c₁ fn.Result subst with
          | none => none
          | some (c₂, r') => some (Registry.Func c₂ a' r')
    else if target.tagOf = enumTag then
      match c.enums.get? target.index with
      | none => none
      | some m =>
        match substEntriesF n c m.1 subst with
        | none => none
        | some (c₁, l') =>
          if h : SortedKeys l' then some (Registry.Enum c₁ ⟨l', h⟩)
          else none
    else if target.tagOf = recordTag then
      match c.records.get? target.index with
      | none => none
      | some m =>
        match substEntriesF n c m.1 subst with
        | none => none
        | some (c₁, l') =>
          if h : SortedKeys l' then some (Registry.Record c₁ ⟨l', h⟩)
          else none
    else some (c, target)

/-- The `for k, v := range` loops of `substitute`'s enum/record cases:
substitute each entry's value, keeping its key. -/
def substEntriesF : Nat → Registry → List (String × TypeRef) → Subst →
    Option (Registry × List (String × TypeRef))
  | 0, _, _, _ => none
  | _+1, c, [], _ => some (c, [])
  | n+1, c, (k, t) :: rest, subst =>
    match substituteF n c t subst with
    | none => none
    | some (c₁, t') =>
      match substEntriesF n c₁ rest subst with
      | none => none
      | some (c₂, rest') => some (c₂, (k, t') :: rest')
end

/-- `Registry.Instantiate` (type.go:301-305): collect a fresh var per
discovered unbound, then substitute. -/
def InstantiateF (n : Nat) (c : Registry) (target : TypeRef) :
    Option (Registry × TypeRef) :=
  match insertUnboundF n c target [] with
  | none => none
  | some (c₁, subst) => substituteF n c₁ target subst

theorem sortedKeys_singleton (k : String) (r : TypeRef) :
    SortedKeys [(k, r)] := by
  unfold SortedKeys
  exact List.pairwise_singleton _ _

/-- **C3 (amended).** `Instantiate` replaces each unbound discovered by
`insertUnbound` — those reachable through top-level, list-element and
function arg/result positions only, since the collection skips enum and
record components (the source's `TODO: Other types`) — by a fresh var,
with every occurrence of the same unbound mapped to the same fresh var
(sharing preserved); `substitute` does descend into enum and record
interiors, replacing bound unbounds there, while unbounds outside the
substitution remain unchanged. -/
theorem instantiate_unbounds :
    (∀ (n : Nat) (reg : Registry) (s : Subst) (t : TypeRef),
      t.tagOf = enumTag ∨ t.tagOf = recordTag →
      insertUnboundF (n+1) reg t s = some (reg, s)) ∧
    (∀ (n : Nat) (reg : Registry) (t : TypeRef),
      t.tagOf = unboundTag →
      InstantiateF (n+1) reg t =
        some ({ reg with vars := reg.vars ++ [NeverRef] },
          makeTypeRef varTag reg.vars.length)) ∧
    (∀ (n : Nat) (reg : Registry) (i : Nat) (u : TypeRef),
      reg.funcs.get? i = some ⟨u, u⟩ →
      u.tagOf = unboundTag →
      InstantiateF (n+2) reg (makeTypeRef funcTag i) =
        some (Registry.Func { reg with vars := reg.vars ++ [NeverRef] }
          (makeTypeRef varTag reg.vars.length)
          (makeTypeRef varTag reg.vars.length))) ∧
    (∀ (n : Nat) (reg : Registry) (s : Subst) (i : Nat) (k : String)
      (u v : TypeRef) (hk : SortedKeys [(k, u)]),
      reg.enums.get? i = some ⟨[(k, u)], hk⟩ →
      u.tagOf = unboundTag → Subst.find s u = some v →
      substituteF (n+3) reg (makeTypeRef enumTag i) s =
        some (Registry.Enum reg ⟨[(k, v)], sortedKeys_singleton k v⟩)) ∧
    (∀ (n : Nat) (reg : Registry) (s : Subst) (i : Nat) (k : String)
      (u v : TypeRef) (hk : SortedKeys [(k, u)]),
      reg.records.get? i = some ⟨[(k, u)], hk⟩ →
      u.tagOf = unboundTag → Subst.find s u = some v →
      substituteF (n+3) reg (makeTypeRef recordTag i) s =
        some (Registry.Record reg ⟨[(k, v)], sortedKeys_singleton k v⟩)) ∧
    (∀ (n : Nat) (reg : Registry) (s : Subst) (t : TypeRef),
      t.tagOf = unboundTag → Subst.find s t = none →
      substituteF (n+1) reg t s = some (reg, t)) := by
  refine ⟨?_, ?_, ?_, ?_, ?_, ?_⟩
  · intro n reg s t ht
    rcases ht with ht | ht <;>
      simp [insertUnboundF, ht, enumTag, recordTag, unboundTag, listTag,
        funcTag]
  · intro n reg t ht
    simp [InstantiateF, insertUnboundF, substituteF, ht, Subst.binds,
      Subst.find, Registry.Var]
  · intro n reg i u hf hu
    have htag : TypeRef.tagOf (makeTypeRef 2 i) = 2 :=
      makeTypeRef_tagOf 2 i (by decide)
    have hidx : TypeRef.index (makeTypeRef 2 i) = i :=
      makeTypeRef_index 2 i (by decide)
    rw [List.get?_eq_getElem?] at hf
    simp [InstantiateF, insertUnboundF, substituteF, htag, hidx, hf, hu,
      Subst.binds, Subst.find, Registry.Var, unboundTag, listTag, funcTag,
      varTag]
  · intro n reg s i k u v hk he hu hfind
    have htag : TypeRef.tagOf (makeTypeRef 3 i) = 3 :=
      makeTypeRef_tagOf 3 i (by decide)
    have hidx : TypeRef.index (makeTypeRef 3 i) = i :=
      makeTypeRef_index 3 i (by decide)
    rw [List.get?_eq_getElem?] at he
    simp [substituteF, substEntriesF, htag, hidx, he, hu, hfind,
      SortedKeys, unboundTag, listTag, funcTag, enumTag, varTag]
  · intro n reg s i k u v hk he hu hfind
    have htag : TypeRef.tagOf (makeTypeRef 4 i) = 4 :=
      makeTypeRef_tagOf 4 i (by decide)
    have hidx : TypeRef.index (makeTypeRef 4 i) = i :=
      makeTypeRef_index 4 i (by decide)
    rw [List.get?_eq_getElem?] at he
    simp [substituteF, substEntriesF, htag, hidx, he, hu, hfind,
      SortedKeys, unboundTag, listTag, funcTag, enumTag, recordTag,
      varTag]
  · intro n reg s t ht hfind
    simp [substituteF, ht, hfind]

/-- A registry whose only unbound, `$u0`, occurs exclusively inside an
enum component. -/
def regC3 : Registry :=
  { unbound := 1,
    enums := [⟨[("a", makeTypeRef unboundTag 0)], by decide⟩] }

/-- The claim as stated fails: for the enum type `#a u0` whose payload
is the registry's only unbound, `Instantiate` returns the type and the
registry unchanged — no fresh var is created and the unbound inside the
enum component is not replaced, because `insertUnbound` never descends
into enum (or record) components. -/
theorem instantiate_unbounds_counterexample :
    regC3.GetEnum (makeTypeRef enumTag 0) =
      some ⟨[("a", makeTypeRef unboundTag 0)], by decide⟩ ∧
    InstantiateF 10 regC3 (makeTypeRef enumTag 0) =
      some (regC3, makeTypeRef enumTag 0) ∧
    regC3.vars = [] := by
  refine ⟨by decide, ?_, rfl⟩
  rfl

/-- The registry `{ funcs := [u0 -> u0], unbound := 1 }`: instantiating
its function type replaces both occurrences of `u0` by the same fresh
var. -/
def regC3f : Registry :=
  { unbound := 1,
    funcs := [⟨makeTypeRef unboundTag 0, makeTypeRef unboundTag 0⟩] }

theorem instantiate_unbounds_witness :
    regC3f.funcs.get? 0 =
      some ⟨makeTypeRef unboundTag 0, makeTypeRef unboundTag 0⟩ ∧
    InstantiateF 2 regC3f (makeTypeRef funcTag 0) =
      some (Registry.Func { regC3f with vars := [NeverRef] }
        (makeTypeRef varTag 0) (makeTypeRef varTag 0)) ∧
    InstantiateF 1 regC3f (makeTypeRef unboundTag 0) =
      some ({ regC3f with vars := [NeverRef] }, makeTypeRef varTag 0) := by
  refine ⟨rfl, ?_, ?_⟩
  · have h := instantiate_unbounds.2.2.1 0 regC3f 0
      (makeTypeRef unboundTag 0) rfl (by decide)
    simpa using h
  · have h := instantiate_unbounds.2.1 0 regC3f
      (makeTypeRef unboundTag 0) (by decide)
    simpa using h

/-! ## The validating fetcher (src/yards, `valid.FetchSha256`) -/

namespace yards

/-- Fetcher failures: the `ErrWrongHash` of the validating fetcher, plus
the wrapped fetcher's own errors (not-found, I/O), passed through
opaquely. -/
inductive FetchErr where
  | wrongHash
  | notFound
  | io (msg : String)
deriving DecidableEq, Repr

/-- `valid.FetchSha256`: fetch through the wrapped fetcher, recompute the
SHA-256 of the returned bytes, and compare its lowercase-hex rendering
(`fmt.Sprintf("%x", hash)` in the source) against the requested key;
return `ErrWrongHash` on mismatch and the bytes unchanged on agreement.
The SHA-256-and-hex computation itself is `crypto/sha256` + `fmt` from
Go's standard library, taken here as the parameter `hashHex`. -/
def FetchSha256 (hashHex : List Nat → String)
    (inner : String → Except FetchErr (List Nat)) (key : String) :
    Except FetchErr (List Nat) :=
  match inner key with
  | .error e => .error e
  | .ok bytes =>
    if hashHex bytes ≠ key then .error .wrongHash
    else .ok bytes

/-- **C9.** For every key and wrapped fetcher, the validating fetcher
returns the fetched bytes unchanged exactly when the lowercase-hex SHA-256
of those bytes equals the requested key; a recomputed hash differing from
the key yields the wrong-hash error, and errors of the wrapped fetcher
pass through unchanged. -/
theorem valid_fetch_sha256 (hashHex : List Nat → String)
    (inner : String → Except FetchErr (List Nat)) (key : String) :
    (∀ e, inner key = .error e → FetchSha256 hashHex inner key = .error e) ∧
    (∀ bs, inner key = .ok bs →
      ((FetchSha256 hashHex inner key = .ok bs ↔ hashHex bs = key) ∧
       (hashHex bs ≠ key →
         FetchSha256 hashHex inner key = .error .wrongHash))) := by
  constructor
  · intro e he
    simp [FetchSha256, he]
  · intro bs hb
    by_cases h : hashHex bs = key
    · simp [FetchSha256, hb, h]
    · simp [FetchSha256, hb, h]

theorem valid_fetch_sha256_witness :
    (fun _ : String => (Except.ok [1, 2, 3] : Except FetchErr (List Nat))) "k" =
      Except.ok [1, 2, 3] ∧
    FetchSha256 (fun _ => "k") (fun _ => .ok [1, 2, 3]) "k" = .ok [1, 2, 3] :=
  ⟨rfl,
    ((valid_fetch_sha256 (fun _ => "k") (fun _ => .ok [1, 2, 3]) "k").2
      [1, 2, 3] rfl).1.mpr rfl⟩

end yards

/-! ## Runtime values and structural equality (src/unnamed/part_011) -/

namespace values

mutual
/-- The evaluator's runtime `Value` (src/unnamed/part_011): hole, int,
float, text, byte, bytes, named type constant, record (TypeRef + key →
Value map), list (TypeRef + elements), variant (TypeRef + tag + optional
payload — Go's `nil` payload of a nullary variant is `OptValue.none`),
and the two function kinds.  Function pointers are not representable and
are dropped; their `eq` methods compare only `name` / `source` anyway.
Go `float64` payloads are carried as bit patterns; nothing settled here
depends on IEEE NaN or signed-zero equality.  Record entry lists stand
for Go maps in canonical key-sorted order. -/
inductive Value : Type where
  | hole
  | int (i : Int)
  | float (bits : Nat)
  | text (s : String)
  | byte (b : Nat)
  | bytes (bs : List Nat)
  | type (t : TypeRef)
  | record (typ : TypeRef) (values : Entries)
  | list (typ : TypeRef) (elements : Values)
  | variant (typ : TypeRef) (tag : String) (value : OptValue)
  | builtin (name : String) (typ : TypeRef)
  | script (source : String)

inductive Values : Type where
  | nil
  | cons (v : Value) (rest : Values)

inductive Entries : Type where
  | nil
  | cons (k : String) (v : Value) (rest : Entries)

inductive OptValue : Type where
  | none
  | some (v : Value)
end

mutual
/-- `Equals` from part_011 together with the per-kind `eq` methods it
dispatches to: `Hole.eq`/`Int.eq`/…/`ScriptFunc.eq` each type-assert the
other value and compare payloads; `Record.eq` and `List.eq` additionally
require the two `typ` TypeRefs to be equal, while `Variant.eq` compares
only `tag` and payload and ignores `typ`. -/
def Equals : Value → Value → Bool
  | .hole, o => match o with | .hole => true | _ => false
  | .int i, o => match o with | .int j => decide (i = j) | _ => false
  | .float x, o => match o with | .float y => decide (x = y) | _ => false
  | .text s, o => match o with | .text t => decide (s = t) | _ => false
  | .byte b, o => match o with | .byte c => decide (b = c) | _ => false
  | .bytes bs, o => match o with | .bytes cs => decide (bs = cs) | _ => false
  | .type t, o => match o with | .type u => decide (t = u) | _ => false
  | .record t vs, o =>
    match o with
    | .record u ws => decide (t = u) && eqEntries vs ws
    | _ => false
  | .list t es, o =>
    match o with
    | .list u fs => decide (t = u) && eqValues es fs
    | _ => false
  | .variant _ tag p, o =>
    match o with
    | .variant _ tag' p' => decide (tag = tag') && EqualsOpt p p'
    | _ => false
  | .builtin n _, o => match o with | .builtin n' _ => decide (n = n') | _ => false
  | .script s, o => match o with | .script s' => decide (s = s') | _ => false

/-- `Equals` applied to possibly-nil payloads: Go's `Equals(nil, x)`
matches no case of the type switch and `x.eq(nil)` fails every type
assertion, so any comparison involving a nil payload is false. -/
def EqualsOpt : OptValue → OptValue → Bool
  | .some a, .some b => Equals a b
  | _, _ => false

/-- `slices.EqualFunc(l, o, Equals)`. -/
def eqValues : Values → Values → Bool
  | .nil, .nil => true
  | .cons a as, .cons b bs => Equals a b && eqValues as bs
  | _, _ => false

/-- `maps.EqualFunc(m, o, Equals)` over the canonical key-sorted entry
lists: equal key sets iff identical key sequences, values compared
pairwise with `Equals`. -/
def eqEntries : Entries → Entries → Bool
  | .nil, .nil => true
  | .cons k a as, .cons k' b bs => decide (k = k') && Equals a b && eqEntries as bs
  | _, _ => false
end

/-- **C10.** Value equality on variants ignores the carried enum type:
`Equals` on two variants is true exactly when their tags are equal and
their payloads are `Equals`-equal, whatever the two `typ` TypeRefs are —
whereas `Equals` on two lists or two records is false whenever the two
`typ` TypeRefs differ, and in general requires identical TypeRefs on top
of elementwise equality. -/
theorem variant_eq_ignores_type :
    (∀ (t₁ t₂ : TypeRef) (tag₁ tag₂ : String) (p₁ p₂ : OptValue),
      (Equals (.variant t₁ tag₁ p₁) (.variant t₂ tag₂ p₂) = true ↔
        (tag₁ = tag₂ ∧ EqualsOpt p₁ p₂ = true))) ∧
    (∀ (t₁ t₂ : TypeRef) (es₁ es₂ : Values), t₁ ≠ t₂ →
      Equals (.list t₁ es₁) (.list t₂ es₂) = false) ∧
    (∀ (t₁ t₂ : TypeRef) (m₁ m₂ : Entries), t₁ ≠ t₂ →
      Equals (.record t₁ m₁) (.record t₂ m₂) = false) ∧
    (∀ (t₁ t₂ : TypeRef) (es₁ es₂ : Values),
      (Equals (.list t₁ es₁) (.list t₂ es₂) = true ↔
        (t₁ = t₂ ∧ eqValues es₁ es₂ = true))) ∧
    (∀ (t₁ t₂ : TypeRef) (m₁ m₂ : Entries),
      (Equals (.record t₁ m₁) (.record t₂ m₂) = true ↔
        (t₁ = t₂ ∧ eqEntries m₁ m₂ = true))) := by
  refine ⟨?_, ?_, ?_, ?_, ?_⟩
  · intro t₁ t₂ tag₁ tag₂ p₁ p₂
    simp [Equals]
  · intro t₁ t₂ es₁ es₂ h
    simp [Equals, h]
  · intro t₁ t₂ m₁ m₂ h
    simp [Equals, h]
  · intro t₁ t₂ es₁ es₂
    simp [Equals]
  · intro t₁ t₂ m₁ m₂
    simp [Equals]

theorem variant_eq_ignores_type_witness :
    makeTypeRef enumTag 0 ≠ makeTypeRef enumTag 1 ∧
    Equals (.variant (makeTypeRef enumTag 0) "a" (.some (.int 1)))
      (.variant (makeTypeRef enumTag 1) "a" (.some (.int 1))) = true ∧
    Equals (.list (makeTypeRef listTag 0) .nil)
      (.list (makeTypeRef listTag 1) .nil) = false :=
  ⟨by decide,
    (variant_eq_ignores_type.1 (makeTypeRef enumTag 0) (makeTypeRef enumTag 1)
      "a" "a" (.some (.int 1)) (.some (.int 1))).mpr
      ⟨rfl, by simp [EqualsOpt, Equals]⟩,
    variant_eq_ignores_type.2.1 (makeTypeRef listTag 0) (makeTypeRef listTag 1)
      .nil .nil (by decide)⟩

end values

/-! ## The structural value matcher (src/eval/match.go) and match-lambda
application (src/eval/eval.go, `createMatchFunc`)

These use the evaluator's value model of the same vintage as match.go and
eval.go (`src/unnamed/part_010`): `Record`/`List`/`Enum` without TypeRefs
and `Variant{tag, value}` with a possibly-nil payload. -/

namespace evalm

/-- A parsed pattern literal (the matcher's `Literal(m.source, x)` call
parses the literal's source text; parse failures are external to the
matcher, and a well-formed pattern parses).  Floats are carried as bit
patterns — the matcher rejects float literals before ever comparing
them. -/
inductive Lit : Type where
  | hole
  | int (i : Int)
  | float (bits : Nat)
  | text (s : String)
  | byte (b : Nat)
  | bytes (bs : List Nat)
deriving DecidableEq, Repr

def Lit.isFloat : Lit → Bool
  | .float _ => true
  | _ => false

/-- The runtime `Value` of part_010: `Record`/`Enum` are
`map[string]Value` (canonical association lists here), `List` is
`[]Value`, `Variant` carries a tag and a payload Value that Go may leave
`nil` for nullary variants — `nilV` stands for that nil.  Function
pointers are dropped from the two function kinds as in part_011's
model. -/
inductive Value : Type where
  | hole
  | int (i : Int)
  | float (bits : Nat)
  | text (s : String)
  | byte (b : Nat)
  | bytes (bs : List Nat)
  | enumE (entries : List (String × Value))
  | record (entries : List (String × Value))
  | list (elements : List Value)
  | variant (tag : String) (value : Value)
  | builtin (name : String)
  | script (source : String)
  | nilV

mutual
/-- The pattern fragment `matcher.match` traverses (src/eval/match.go):
identifiers (`_` the wildcard), parsed literals, variant patterns (the
payload expression may be absent — Go then calls `m.match(nil, v)`,
which falls through every case of the type switch to no-match; the nil
payload is a TODO in the source), record patterns with entries and an
optional rest, list patterns, and binary patterns, whose value-direction
handling is an empty `CONCAT` stub falling through to no-match. -/
inductive Pat : Type where
  | ident (name : String)
  | lit (l : Lit)
  | variant (tag : String) (val : OptPat)
  | record (entries : PatEntries) (rest : OptPat)
  | list (elems : Pats)
  | binary (left right : Pat)

inductive Pats : Type where
  | nil
  | cons (p : Pat) (rest : Pats)

inductive PatEntries : Type where
  | nil
  | cons (k : String) (p : Pat) (rest : PatEntries)

inductive OptPat : Type where
  | none
  | some (p : Pat)
end

def Pats.length : Pats → Nat
  | .nil => 0
  | .cons _ rest => rest.length + 1

def PatEntries.keysOf : PatEntries → List String
  | .nil => []
  | .cons k _ rest => k :: rest.keysOf

/-- `lit.eq(val)` — the `eq` methods of part_010 for the literal value
kinds: a type assertion on the other value followed by payload
equality. -/
def litEq : Lit → Value → Bool
  | .hole, v => match v with | .hole => true | _ => false
  | .int i, v => match v with | .int j => decide (i = j) | _ => false
  | .float x, v => match v with | .float y => decide (x = y) | _ => false
  | .text s, v => match v with | .text t => decide (s = t) | _ => false
  | .byte b, v => match v with | .byte c => decide (b = c) | _ => false
  | .bytes bs, v => match v with | .bytes cs => decide (bs = cs) | _ => false

/-- `Variables` — the matcher's accumulated name bindings
(`map[string]Value`; insertion order as a list, keys unique because
`matcher.set` refuses duplicates). -/
abbrev Variables := List (String × Value)

/-- The matcher's hard errors (raised through `matcher.error`, which
panics out of the traversal): `cannot match on floats`, `cannot bind <X>
twice`, `cannot bind to missing key <k>`.  `ErrNoMatch` is not an
abort — `m.err = ErrNoMatch` lets the traversal continue — and is
modelled as a sticky boolean flag instead. -/
inductive MatchErr : Type where
  | noFloat
  | bindTwice (name : String)
  | missingKey (k : String)
deriving DecidableEq, Repr

/-- The matcher's running state: the bindings so far and whether
`m.err = ErrNoMatch` has been recorded. -/
abbrev St := Variables × Bool

/-- `matcher.set` (match.go:127-137): `_` is ignored; a name already
bound aborts with `cannot bind <name> twice`; otherwise the binding is
added. -/
def set (name : String) (val : Value) : St → Except MatchErr St
  | (vars, flag) =>
    if name = "_" then .ok (vars, flag)
    else
      match vars.lookup name with
      | Option.some _ => .error (.bindTwice name)
      | Option.none => .ok (vars ++ [(name, val)], flag)

/-- The residual record for a rest pattern: clone the record and delete
the keys used by the listed entries. -/
def eraseKeys (ks : List String) (rvs : List (String × Value)) :
    List (String × Value) :=
  rvs.filter (fun p => ! ks.contains p.1)

mutual
/-- `matcher.match` (match.go:50-125).  The flag half of the state is
`m.err == ErrNoMatch`; it is only ever written, never read, and every
fall-through of the Go type switch ends in `m.err = ErrNoMatch`.  Hard
errors short-circuit (Go panics with `bail{}`).  The fuel argument makes
the recursion through the pattern uniform; `none` means exhausted fuel
(the recursion depth is bounded by the pattern size, so any fuel beyond
it gives `some`). -/
def mmatch : Nat → Pat → Value → St → Option (Except MatchErr St)
  | 0, _, _, _ => none
  | _+1, .ident name, val, st => some (set name val st)
  | _+1, .lit l, val, st =>
    some
      (if l.isFloat then .error .noFloat
       else if litEq l val then .ok st else .ok (st.1, true))
  | n+1, .variant tag p, val, st =>
    match val with
    | .variant vtag vval =>
      if tag = vtag then
        match p with
        | .some pp => mmatch n pp vval st
        | .none => some (.ok (st.1, true))
      else some (.ok (st.1, true))
    | _ => some (.ok (st.1, true))
  | n+1, .record entries rest, val, st =>
    match val with
    | .record rvs =>
      match mmatchEntries n entries rvs st with
      | Option.none => none
      | Option.some (.error e) => some (.error e)
      | Option.some (.ok st₁) =>
        match rest with
        | .some rp => mmatch n rp (.record (eraseKeys entries.keysOf rvs)) st₁
        | .none => some (.ok st₁)
    | _ => some (.ok (st.1, true))
  | n+1, .list ps, val, st =>
    match val with
    | .list vs =>
      if ps.length = vs.length then mmatchList n ps vs st
      else some (.ok (st.1, true))
    | _ => some (.ok (st.1, true))
  | _+1, .binary _ _, _, st => some (.ok (st.1, true))

/-- The record-entry loop: each listed key must exist in the value
(`cannot bind to missing key` aborts even when the flag is already set),
recursing on the entry's pattern. -/
def mmatchEntries : Nat → PatEntries → List (String × Value) → St →
    Option (Except MatchErr St)
  | 0, _, _, _ => none
  | _+1, .nil, _, st => some (.ok st)
  | n+1, .cons k p rest, rvs, st =>
    match rvs.lookup k with
    | Option.none => some (.error (.missingKey k))
    | Option.some v =>
      match mmatch n p v st with
      | Option.none => none
      | Option.some (.error e) => some (.error e)
      | Option.some (.ok st₁) => mmatchEntries n rest rvs st₁

/-- The list-element loop (lengths were checked equal beforehand; the
impossible shorter-value case returns the state unchanged). -/
def mmatchList : Nat → Pats → List Value → St → Option (Except MatchErr St)
  | 0, _, _, _ => none
  | _+1, .nil, _, st => some (.ok st)
  | n+1, .cons p ps, v :: vs, st =>
    match mmatch n p v st with
    | Option.none => none
    | Option.some (.error e) => some (.error e)
    | Option.some (.ok st₁) => mmatchList n ps vs st₁
  | _+1, .cons _ _, [], st => some (.ok st)
end

/-- `Match` (match.go:33-48): run the matcher with no bindings; a hard
error surfaces as the error, `.ok (vars, true)` is `ErrNoMatch` (with
whatever partial bindings were made), `.ok (vars, false)` is a match
yielding `vars`. -/
def Match (fuel : Nat) (p : Pat) (v : Value) : Option (Except MatchErr St) :=
  mmatch fuel p v ([], false)

mutual
/-- Does the pattern contain a float literal anywhere? -/
def containsFloat : Pat → Bool
  | .ident _ => false
  | .lit l => l.isFloat
  | .variant _ p => containsFloatOpt p
  | .record es r => containsFloatEntries es || containsFloatOpt r
  | .list ps => containsFloatList ps
  | .binary l r => containsFloat l || containsFloat r

def containsFloatOpt : OptPat → Bool
  | .none => false
  | .some p => containsFloat p

def containsFloatEntries : PatEntries → Bool
  | .nil => false
  | .cons _ p rest => containsFloat p || containsFloatEntries rest

def containsFloatList : Pats → Bool
  | .nil => false
  | .cons p rest => containsFloat p || containsFloatList rest
end

mutual
/-- The names a pattern binds, in traversal order, wildcards excluded.
Binary patterns bind nothing: the matcher never descends into them. -/
def patNames : Pat → List String
  | .ident n => if n = "_" then [] else [n]
  | .lit _ => []
  | .variant _ p => patNamesOpt p
  | .record es r => patNamesEntries es ++ patNamesOpt r
  | .list ps => patNamesList ps
  | .binary _ _ => []

def patNamesOpt : OptPat → List String
  | .none => []
  | .some p => patNames p

def patNamesEntries : PatEntries → List String
  | .nil => []
  | .cons _ p rest => patNames p ++ patNamesEntries rest

def patNamesList : Pats → List String
  | .nil => []
  | .cons p rest => patNames p ++ patNamesList rest
end

theorem lookup_none_iff {α : Type} (k : String) (l : List (String × α)) :
    l.lookup k = Option.none ↔ k ∉ l.map Prod.fst := by
  induction l with
  | nil => simp
  | cons p t ih =>
    obtain ⟨k₁, v⟩ := p
    by_cases hk : k = k₁
    · subst hk
      simp [List.lookup]
    · simp [List.lookup, hk, ih, beq_false_of_ne hk]

theorem set_ok_cases {n : String} {v : Value} {vars : Variables} {fl : Bool}
    {r : St} (h : set n v (vars, fl) = .ok r) :
    (n = "_" ∧ r = (vars, fl)) ∨
    (n ≠ "_" ∧ vars.lookup n = Option.none ∧ r = (vars ++ [(n, v)], fl)) := by
  by_cases hn : n = "_"
  · left
    refine ⟨hn, ?_⟩
    simp only [set, hn, if_pos] at h
    cases h; rfl
  · right
    refine ⟨hn, ?_⟩
    simp only [set, hn, if_false] at h
    cases hl : vars.lookup n with
    | none => rw [hl] at h; cases h; exact ⟨rfl, rfl⟩
    | some x => rw [hl] at h; exact Except.noConfusion h

theorem set_error_cases {n : String} {v : Value} {vars : Variables} {fl : Bool}
    {e : MatchErr} (h : set n v (vars, fl) = .error e) :
    e = .bindTwice n ∧ n ≠ "_" ∧ ∃ x, vars.lookup n = Option.some x := by
  by_cases hn : n = "_"
  · simp [set, hn] at h
  · simp only [set, hn, if_false] at h
    cases hl : vars.lookup n with
    | none => rw [hl] at h; exact Except.noConfusion h
    | some x =>
      rw [hl] at h
      cases h
      exact ⟨rfl, hn, x, rfl⟩

/-- The no-match flag is sticky: the matcher only ever sets it. -/
theorem mmatch_mono_all : ∀ n : Nat,
    (∀ (p : Pat) (v : Value) (vars : Variables) (r : St),
      mmatch n p v (vars, true) = some (.ok r) → r.2 = true) ∧
    (∀ (es : PatEntries) (rvs : List (String × Value)) (vars : Variables)
      (r : St),
      mmatchEntries n es rvs (vars, true) = some (.ok r) → r.2 = true) ∧
    (∀ (ps : Pats) (vs : List Value) (vars : Variables) (r : St),
      mmatchList n ps vs (vars, true) = some (.ok r) → r.2 = true) := by
  intro n
  induction n with
  | zero =>
    refine ⟨?_, ?_, ?_⟩ <;> (intro _ _ _ _ h; exact Option.noConfusion h)
  | succ n ih =>
    obtain ⟨ihm, ihe, ihl⟩ := ih
    refine ⟨?_, ?_, ?_⟩
    · intro p v vars r h
      cases p with
      | ident name =>
        simp only [mmatch, Option.some_inj] at h
        rcases set_ok_cases h with ⟨-, rfl⟩ | ⟨-, -, rfl⟩ <;> rfl
      | lit l =>
        simp only [mmatch, Option.some_inj] at h
        by_cases hf : l.isFloat
        · rw [if_pos hf] at h; exact Except.noConfusion h
        · rw [if_neg hf] at h
          by_cases he : litEq l v
          · rw [if_pos he] at h; cases h; rfl
          · rw [if_neg he] at h; cases h; rfl
      | variant tag p =>
        cases v <;> simp only [mmatch, Option.some_inj] at h
        case variant vtag vval =>
          by_cases ht : tag = vtag
          · rw [if_pos ht] at h
            cases p with
            | some pp => exact ihm pp vval vars r h
            | none => simp only [Option.some_inj] at h; cases h; rfl
          · rw [if_neg ht] at h
            simp only [Option.some_inj] at h; cases h; rfl
        all_goals (cases h; rfl)
      | record es rest =>
        cases v <;> simp only [mmatch, Option.some_inj] at h
        case record rvs =>
          cases he : mmatchEntries n es rvs (vars, true) with
          | none => simp only [he] at h; exact Option.noConfusion h
          | some x =>
            simp only [he] at h
            cases x with
            | error e => simp at h
            | ok st₁ =>
              obtain ⟨w₁, f₁⟩ := st₁
              have hf₁ : f₁ = true := ihe es rvs vars (w₁, f₁) he
              subst hf₁
              cases rest with
              | some rp => exact ihm rp (.record (eraseKeys es.keysOf rvs)) w₁ r h
              | none => simp only [Option.some_inj] at h; cases h; rfl
        all_goals (cases h; rfl)
      | list ps =>
        cases v <;> simp only [mmatch, Option.some_inj] at h
        case list vs =>
          by_cases hl : ps.length = vs.length
          · rw [if_pos hl] at h
            exact ihl ps vs vars r h
          · rw [if_neg hl] at h
            simp only [Option.some_inj] at h; cases h; rfl
        all_goals (cases h; rfl)
      | binary l rr =>
        simp only [mmatch, Option.some_inj] at h
        cases h; rfl
    · intro es rvs vars r h
      cases es with
      | nil =>
        simp only [mmatchEntries, Option.some_inj] at h
        cases h; rfl
      | cons k p rest =>
        simp only [mmatchEntries] at h
        cases hl : rvs.lookup k with
        | none => simp only [hl] at h; simp at h
        | some v =>
          simp only [hl] at h
          cases hm : mmatch n p v (vars, true) with
          | none => simp only [hm] at h; exact Option.noConfusion h
          | some x =>
            simp only [hm] at h
            cases x with
            | error e => simp at h
            | ok st₁ =>
              obtain ⟨w₁, f₁⟩ := st₁
              have hf₁ : f₁ = true := ihm p v vars (w₁, f₁) hm
              subst hf₁
              exact ihe rest rvs w₁ r h
    · intro ps vs vars r h
      cases ps with
      | nil =>
        simp only [mmatchList, Option.some_inj] at h
        cases h; rfl
      | cons p rest =>
        cases vs with
        | nil =>
          simp only [mmatchList, Option.some_inj] at h
          cases h; rfl
        | cons v vtail =>
          simp only [mmatchList] at h
          cases hm : mmatch n p v (vars, true) with
          | none => simp only [hm] at h; exact Option.noConfusion h
          | some x =>
            simp only [hm] at h
            cases x with
            | error e => simp at h
            | ok st₁ =>
              obtain ⟨w₁, f₁⟩ := st₁
              have hf₁ : f₁ = true := ihm p v vars (w₁, f₁) hm
              subst hf₁
              exact ihl rest vtail w₁ r h

theorem nodup_append_singleton {l : List String} {n : String}
    (hl : l.Nodup) (hn : n ∉ l) : (l ++ [n]).Nodup := by
  rw [List.nodup_append]
  exact ⟨hl, List.nodup_singleton n, by simp [List.Disjoint]; intro a ha hc; subst hc; exact hn ha⟩

/-- A successful match (final no-match flag false) visits the whole
pattern: the bindings accumulated are exactly the pattern's names, in
order, appended to the incoming bindings, and distinctness of the keys is
preserved. -/
theorem mmatch_success_all : ∀ n : Nat,
    (∀ (p : Pat) (v : Value) (vars : Variables) (fl : Bool) (w : Variables),
      mmatch n p v (vars, fl) = some (.ok (w, false)) →
      w.map Prod.fst = vars.map Prod.fst ++ patNames p ∧
      ((vars.map Prod.fst).Nodup → (w.map Prod.fst).Nodup)) ∧
    (∀ (es : PatEntries) (rvs : List (String × Value)) (vars : Variables)
      (fl : Bool) (w : Variables),
      mmatchEntries n es rvs (vars, fl) = some (.ok (w, false)) →
      w.map Prod.fst = vars.map Prod.fst ++ patNamesEntries es ∧
      ((vars.map Prod.fst).Nodup → (w.map Prod.fst).Nodup)) ∧
    (∀ (ps : Pats) (vs : List Value) (vars : Variables) (fl : Bool)
      (w : Variables), ps.length = vs.length →
      mmatchList n ps vs (vars, fl) = some (.ok (w, false)) →
      w.map Prod.fst = vars.map Prod.fst ++ patNamesList ps ∧
      ((vars.map Prod.fst).Nodup → (w.map Prod.fst).Nodup)) := by
  intro n
  induction n with
  | zero =>
    refine ⟨?_, ?_, ?_⟩
    · intro _ _ _ _ _ h; exact Option.noConfusion h
    · intro _ _ _ _ _ h; exact Option.noConfusion h
    · intro _ _ _ _ _ _ h; exact Option.noConfusion h
  | succ n ih =>
    obtain ⟨ihm, ihe, ihl⟩ := ih
    refine ⟨?_, ?_, ?_⟩
    · intro p v vars fl w h
      cases p with
      | ident name =>
        simp only [mmatch, Option.some_inj] at h
        rcases set_ok_cases h with ⟨hn, heq⟩ | ⟨hn, hlook, heq⟩
        · obtain ⟨hw, -⟩ := Prod.mk.injEq .. ▸ heq
          injection heq with hw hfl
          subst hw
          simp [patNames, hn]
        · injection heq with hw hfl
          subst hw
          rw [lookup_none_iff] at hlook
          constructor
          · simp [patNames, hn]
          · intro hnd
            simpa using nodup_append_singleton hnd hlook
      | lit l =>
        simp only [mmatch, Option.some_inj] at h
        by_cases hf : l.isFloat
        · rw [if_pos hf] at h; exact Except.noConfusion h
        · rw [if_neg hf] at h
          by_cases he : litEq l v
          · rw [if_pos he] at h
            injection h with h
            injection h with hw hfl
            subst hw
            simp [patNames]
          · rw [if_neg he] at h
            simp at h
      | variant tag p =>
        cases v <;> simp only [mmatch, Option.some_inj] at h
        case variant vtag vval =>
          by_cases ht : tag = vtag
          · rw [if_pos ht] at h
            cases p with
            | some pp =>
              have := ihm pp vval vars fl w h
              simpa [patNames, patNamesOpt] using this
            | none => simp at h
          · rw [if_neg ht] at h; simp at h
        all_goals simp at h
      | record es rest =>
        cases v <;> simp only [mmatch, Option.some_inj] at h
        case record rvs =>
          cases he : mmatchEntries n es rvs (vars, fl) with
          | none => simp only [he] at h; exact Option.noConfusion h
          | some x =>
            simp only [he] at h
            cases x with
            | error e => simp at h
            | ok st₁ =>
              obtain ⟨w₁, f₁⟩ := st₁
              cases rest with
              | some rp =>
                cases f₁ with
                | true =>
                  have := (mmatch_mono_all n).1 rp
                    (.record (eraseKeys es.keysOf rvs)) w₁ (w, false) h
                  exact absurd this (by simp)
                | false =>
                  obtain ⟨hk₁, hd₁⟩ := ihe es rvs vars fl w₁ he
                  obtain ⟨hk₂, hd₂⟩ := ihm rp (.record (eraseKeys es.keysOf rvs))
                    w₁ false w h
                  constructor
                  · rw [hk₂, hk₁]
                    simp [patNames, patNamesOpt, List.append_assoc]
                  · intro hnd; exact hd₂ (hd₁ hnd)
              | none =>
                simp only [Option.some_inj] at h
                injection h with h
                injection h with hw hfl
                subst hw hfl
                obtain ⟨hk₁, hd₁⟩ := ihe es rvs vars fl w₁ he
                constructor
                · rw [hk₁]
                  simp [patNames, patNamesOpt]
                · exact hd₁
        all_goals simp at h
      | list ps =>
        cases v <;> simp only [mmatch, Option.some_inj] at h
        case list vs =>
          by_cases hl : ps.length = vs.length
          · rw [if_pos hl] at h
            have := ihl ps vs vars fl w hl h
            simpa [patNames] using this
          · rw [if_neg hl] at h; simp at h
        all_goals simp at h
      | binary l rr =>
        simp only [mmatch] at h
        simp at h
    · intro es rvs vars fl w h
      cases es with
      | nil =>
        simp only [mmatchEntries, Option.some_inj] at h
        injection h with h
        injection h with hw hfl
        subst hw
        simp [patNamesEntries]
      | cons k p rest =>
        simp only [mmatchEntries] at h
        cases hlk : rvs.lookup k with
        | none => simp only [hlk] at h; simp at h
        | some v =>
          simp only [hlk] at h
          cases hm : mmatch n p v (vars, fl) with
          | none => simp only [hm] at h; exact Option.noConfusion h
          | some x =>
            simp only [hm] at h
            cases x with
            | error e => simp at h
            | ok st₁ =>
              obtain ⟨w₁, f₁⟩ := st₁
              cases f₁ with
              | true =>
                have := (mmatch_mono_all n).2.1 rest rvs w₁ (w, false) h
                exact absurd this (by simp)
              | false =>
                obtain ⟨hk₁, hd₁⟩ := ihm p v vars fl w₁ hm
                obtain ⟨hk₂, hd₂⟩ := ihe rest rvs w₁ false w h
                constructor
                · rw [hk₂, hk₁]
                  simp [patNamesEntries, List.append_assoc]
                · intro hnd; exact hd₂ (hd₁ hnd)
    · intro ps vs vars fl w hlen h
      cases ps with
      | nil =>
        simp only [mmatchList, Option.some_inj] at h
        injection h with h
        injection h with hw hfl
        subst hw
        simp [patNamesList]
      | cons p rest =>
        cases vs with
        | nil => simp [Pats.length] at hlen
        | cons v vtail =>
          simp only [mmatchList] at h
          cases hm : mmatch n p v (vars, fl) with
          | none => simp only [hm] at h; exact Option.noConfusion h
          | some x =>
            simp only [hm] at h
            cases x with
            | error e => simp at h
            | ok st₁ =>
              obtain ⟨w₁, f₁⟩ := st₁
              cases f₁ with
              | true =>
                have := (mmatch_mono_all n).2.2 rest vtail w₁ (w, false) h
                exact absurd this (by simp)
              | false =>
                have hlen' : rest.length = vtail.length := by
                  simpa [Pats.length] using hlen
                obtain ⟨hk₁, hd₁⟩ := ihm p v vars fl w₁ hm
                obtain ⟨hk₂, hd₂⟩ := ihl rest vtail w₁ false w hlen' h
                constructor
                · rw [hk₂, hk₁]
                  simp [patNamesList, List.append_assoc]
                · intro hnd; exact hd₂ (hd₁ hnd)

theorem some_ok_pair {v₁ w : Variables} {f₁ f : Bool}
    (h : (some (Except.ok (v₁, f₁)) : Option (Except MatchErr St)) =
      some (.ok (w, f))) : w = v₁ ∧ f = f₁ := by
  simp at h
  exact ⟨h.1.symm, h.2.symm⟩

/-- With pairwise-distinct pattern names that are absent from the
incoming bindings, the matcher never raises `cannot bind <X> twice`, and
any bindings it produces stay within the incoming keys plus the
pattern's names. -/
theorem mmatch_linear_all : ∀ n : Nat,
    (∀ (p : Pat) (v : Value) (vars : Variables) (fl : Bool),
      (patNames p).Nodup →
      (∀ x ∈ patNames p, x ∉ vars.map Prod.fst) →
      (∀ m, mmatch n p v (vars, fl) ≠ some (.error (.bindTwice m))) ∧
      (∀ w f, mmatch n p v (vars, fl) = some (.ok (w, f)) →
        ∀ x ∈ w.map Prod.fst, x ∈ vars.map Prod.fst ∨ x ∈ patNames p)) ∧
    (∀ (es : PatEntries) (rvs : List (String × Value)) (vars : Variables)
      (fl : Bool),
      (patNamesEntries es).Nodup →
      (∀ x ∈ patNamesEntries es, x ∉ vars.map Prod.fst) →
      (∀ m, mmatchEntries n es rvs (vars, fl) ≠
        some (.error (.bindTwice m))) ∧
      (∀ w f, mmatchEntries n es rvs (vars, fl) = some (.ok (w, f)) →
        ∀ x ∈ w.map Prod.fst,
          x ∈ vars.map Prod.fst ∨ x ∈ patNamesEntries es)) ∧
    (∀ (ps : Pats) (vs : List Value) (vars : Variables) (fl : Bool),
      (patNamesList ps).Nodup →
      (∀ x ∈ patNamesList ps, x ∉ vars.map Prod.fst) →
      (∀ m, mmatchList n ps vs (vars, fl) ≠ some (.error (.bindTwice m))) ∧
      (∀ w f, mmatchList n ps vs (vars, fl) = some (.ok (w, f)) →
        ∀ x ∈ w.map Prod.fst,
          x ∈ vars.map Prod.fst ∨ x ∈ patNamesList ps)) := by
  intro n
  induction n with
  | zero =>
    refine ⟨?_, ?_, ?_⟩ <;>
      (intro _ _ _ _ _ _
       exact ⟨fun m hc => Option.noConfusion hc,
         fun w f hc => Option.noConfusion hc⟩)
  | succ n ih =>
    obtain ⟨ihm, ihe, ihl⟩ := ih
    refine ⟨?_, ?_, ?_⟩
    · intro p v vars fl hnd hdisj
      cases p with
      | ident name =>
        by_cases hn : name = "_"
        · constructor
          · intro m hc
            simp only [mmatch, Option.some_inj] at hc
            simp [set, hn] at hc
          · intro w f hok x hx
            simp only [mmatch, Option.some_inj] at hok
            rcases set_ok_cases hok with ⟨-, heq⟩ | ⟨hne, -, heq⟩
            · have hw : w = vars := congrArg Prod.fst heq
              subst hw
              exact Or.inl hx
            · exact absurd hn hne
        · have hname : patNames (.ident name) = [name] := by simp [patNames, hn]
          have hmem : name ∉ vars.map Prod.fst := by
            apply hdisj
            simp [hname]
          constructor
          · intro m hc
            simp only [mmatch, Option.some_inj] at hc
            obtain ⟨-, -, x, hx⟩ := set_error_cases hc
            rw [(lookup_none_iff name vars).mpr hmem] at hx
            exact Option.noConfusion hx
          · intro w f hok x hx
            simp only [mmatch, Option.some_inj] at hok
            rcases set_ok_cases hok with ⟨hne, -⟩ | ⟨-, -, heq⟩
            · exact absurd hne hn
            · have hw : w = vars ++ [(name, v)] := congrArg Prod.fst heq
              subst hw
              simp only [List.map_append, List.mem_append] at hx
              rcases hx with hx | hx
              · exact Or.inl hx
              · right
                rw [hname]
                simpa using hx
      | lit l =>
        constructor
        · intro m hc
          simp only [mmatch, Option.some_inj] at hc
          by_cases hf : l.isFloat
          · rw [if_pos hf] at hc
            exact MatchErr.noConfusion (Except.error.inj hc)
          · rw [if_neg hf] at hc
            by_cases he : litEq l v
            · rw [if_pos he] at hc; exact Except.noConfusion hc
            · rw [if_neg he] at hc; exact Except.noConfusion hc
        · intro w f hok x hx
          simp only [mmatch, Option.some_inj] at hok
          by_cases hf : l.isFloat
          · rw [if_pos hf] at hok; exact Except.noConfusion hok
          · rw [if_neg hf] at hok
            by_cases he : litEq l v
            · rw [if_pos he] at hok
              have hw : w = vars :=
                (congrArg Prod.fst (Except.ok.inj hok)).symm
              subst hw
              exact Or.inl hx
            · rw [if_neg he] at hok
              have hw : w = vars :=
                (congrArg Prod.fst (Except.ok.inj hok)).symm
              subst hw
              exact Or.inl hx
      | variant tag p =>
        have hnames : patNames (.variant tag p) = patNamesOpt p := by
          simp [patNames]
        rw [hnames] at hnd hdisj
        constructor
        · intro m hc
          cases v <;> simp only [mmatch] at hc
          case variant vtag vval =>
            by_cases ht : tag = vtag
            · rw [if_pos ht] at hc
              cases p with
              | some pp =>
                exact (ihm pp vval vars fl
                  (by simpa [patNamesOpt] using hnd)
                  (by simpa [patNamesOpt] using hdisj)).1 m hc
              | none => simp at hc
            · rw [if_neg ht] at hc; simp at hc
          all_goals simp at hc
        · intro w f hok x hx
          cases v <;> simp only [mmatch] at hok
          case variant vtag vval =>
            by_cases ht : tag = vtag
            · rw [if_pos ht] at hok
              cases p with
              | some pp =>
                have := (ihm pp vval vars fl
                  (by simpa [patNamesOpt] using hnd)
                  (by simpa [patNamesOpt] using hdisj)).2 w f hok x hx
                rw [hnames]
                simpa [patNamesOpt] using this
              | none =>
                obtain ⟨hw, -⟩ := some_ok_pair hok
                subst hw
                exact Or.inl hx
            · rw [if_neg ht] at hok
              obtain ⟨hw, -⟩ := some_ok_pair hok
              subst hw
              exact Or.inl hx
          all_goals
            (obtain ⟨hw, -⟩ := some_ok_pair hok
             subst hw
             exact Or.inl hx)
      | record es rest =>
        have hsplit : patNames (.record es rest) =
            patNamesEntries es ++ patNamesOpt rest := by simp [patNames]
        rw [hsplit] at hnd hdisj
        rw [List.nodup_append] at hnd
        obtain ⟨hndE, hndR, hdisjER⟩ := hnd
        have hdisjE : ∀ x ∈ patNamesEntries es, x ∉ vars.map Prod.fst :=
          fun x hx => hdisj x (List.mem_append_left _ hx)
        have hdisjR : ∀ x ∈ patNamesOpt rest, x ∉ vars.map Prod.fst :=
          fun x hx => hdisj x (List.mem_append_right _ hx)
        constructor
        · intro m hc
          cases v <;> simp only [mmatch] at hc
          case record rvs =>
            cases he : mmatchEntries n es rvs (vars, fl) with
            | none => simp only [he] at hc; exact Option.noConfusion hc
            | some x =>
              simp only [he] at hc
              cases x with
              | error e =>
                simp at hc
                rw [hc] at he
                exact (ihe es rvs vars fl hndE hdisjE).1 m he
              | ok st₁ =>
                obtain ⟨w₁, f₁⟩ := st₁
                cases rest with
                | some rp =>
                  have hsub₁ := (ihe es rvs vars fl hndE hdisjE).2 w₁ f₁ he
                  have hndR' : (patNames rp).Nodup := by
                    simpa [patNamesOpt] using hndR
                  have hdisjR' : ∀ x ∈ patNames rp, x ∉ w₁.map Prod.fst := by
                    intro x hx hcx
                    have hxR : x ∈ patNamesOpt (.some rp) := by
                      simpa [patNamesOpt] using hx
                    rcases hsub₁ x hcx with hx' | hx'
                    · exact hdisjR x hxR hx'
                    · exact hdisjER hx' hxR
                  exact (ihm rp (.record (eraseKeys es.keysOf rvs)) w₁ f₁
                    hndR' hdisjR').1 m hc
                | none => simp at hc
          all_goals simp at hc
        · intro w f hok x hx
          cases v <;> simp only [mmatch] at hok
          case record rvs =>
            cases he : mmatchEntries n es rvs (vars, fl) with
            | none => simp only [he] at hok; exact Option.noConfusion hok
            | some y =>
              simp only [he] at hok
              cases y with
              | error e => simp at hok
              | ok st₁ =>
                obtain ⟨w₁, f₁⟩ := st₁
                have hsub₁ := (ihe es rvs vars fl hndE hdisjE).2 w₁ f₁ he
                cases rest with
                | some rp =>
                  have hndR' : (patNames rp).Nodup := by
                    simpa [patNamesOpt] using hndR
                  have hdisjR' : ∀ y ∈ patNames rp, y ∉ w₁.map Prod.fst := by
                    intro y hy hcy
                    have hyR : y ∈ patNamesOpt (.some rp) := by
                      simpa [patNamesOpt] using hy
                    rcases hsub₁ y hcy with hy' | hy'
                    · exact hdisjR y hyR hy'
                    · exact hdisjER hy' hyR
                  have := (ihm rp (.record (eraseKeys es.keysOf rvs)) w₁ f₁
                    hndR' hdisjR').2 w f hok x hx
                  rcases this with hx' | hx'
                  · rcases hsub₁ x hx' with hx'' | hx''
                    · exact Or.inl hx''
                    · right
                      rw [hsplit]
                      exact List.mem_append_left _ hx''
                  · right
                    rw [hsplit]
                    refine List.mem_append_right _ ?_
                    simpa [patNamesOpt] using hx'
                | none =>
                  obtain ⟨hw, -⟩ := some_ok_pair hok
                  subst hw
                  rcases hsub₁ x hx with hx' | hx'
                  · exact Or.inl hx'
                  · right
                    rw [hsplit]
                    exact List.mem_append_left _ hx'
          all_goals
            (obtain ⟨hw, -⟩ := some_ok_pair hok
             subst hw
             exact Or.inl hx)
      | list ps =>
        have hnames : patNames (.list ps) = patNamesList ps := by
          simp [patNames]
        rw [hnames] at hnd hdisj
        constructor
        · intro m hc
          cases v <;> simp only [mmatch] at hc
          case list vs =>
            by_cases hl : ps.length = vs.length
            · rw [if_pos hl] at hc
              exact (ihl ps vs vars fl hnd hdisj).1 m hc
            · rw [if_neg hl] at hc; simp at hc
          all_goals simp at hc
        · intro w f hok x hx
          cases v <;> simp only [mmatch] at hok
          case list vs =>
            by_cases hl : ps.length = vs.length
            · rw [if_pos hl] at hok
              have := (ihl ps vs vars fl hnd hdisj).2 w f hok x hx
              rw [hnames]
              exact this
            · rw [if_neg hl] at hok
              obtain ⟨hw, -⟩ := some_ok_pair hok
              subst hw
              exact Or.inl hx
          all_goals
            (obtain ⟨hw, -⟩ := some_ok_pair hok
             subst hw
             exact Or.inl hx)
      | binary l rr =>
        constructor
        · intro m hc
          simp only [mmatch] at hc
          simp at hc
        · intro w f hok x hx
          simp only [mmatch] at hok
          obtain ⟨hw, -⟩ := some_ok_pair hok
          subst hw
          exact Or.inl hx
    · intro es rvs vars fl hnd hdisj
      cases es with
      | nil =>
        constructor
        · intro m hc
          simp only [mmatchEntries] at hc
          simp at hc
        · intro w f hok x hx
          simp only [mmatchEntries] at hok
          obtain ⟨hw, -⟩ := some_ok_pair hok
          subst hw
          exact Or.inl hx
      | cons k p rest =>
        have hsplit : patNamesEntries (.cons k p rest) =
            patNames p ++ patNamesEntries rest := by simp [patNamesEntries]
        rw [hsplit] at hnd hdisj
        rw [List.nodup_append] at hnd
        obtain ⟨hndP, hndR, hdisjPR⟩ := hnd
        have hdisjP : ∀ x ∈ patNames p, x ∉ vars.map Prod.fst :=
          fun x hx => hdisj x (List.mem_append_left _ hx)
        have hdisjR : ∀ x ∈ patNamesEntries rest, x ∉ vars.map Prod.fst :=
          fun x hx => hdisj x (List.mem_append_right _ hx)
        constructor
        · intro m hc
          simp only [mmatchEntries] at hc
          cases hlk : rvs.lookup k with
          | none => simp only [hlk] at hc; simp at hc
          | some v =>
            simp only [hlk] at hc
            cases hm : mmatch n p v (vars, fl) with
            | none => simp only [hm] at hc; exact Option.noConfusion hc
            | some y =>
              simp only [hm] at hc
              cases y with
              | error e =>
                simp at hc
                rw [hc] at hm
                exact (ihm p v vars fl hndP hdisjP).1 m hm
              | ok st₁ =>
                obtain ⟨w₁, f₁⟩ := st₁
                have hsub₁ := (ihm p v vars fl hndP hdisjP).2 w₁ f₁ hm
                have hdisjR' : ∀ x ∈ patNamesEntries rest,
                    x ∉ w₁.map Prod.fst := by
                  intro x hx hcx
                  rcases hsub₁ x hcx with hx' | hx'
                  · exact hdisjR x hx hx'
                  · exact hdisjPR hx' hx
                exact (ihe rest rvs w₁ f₁ hndR hdisjR').1 m hc
        · intro w f hok x hx
          simp only [mmatchEntries] at hok
          cases hlk : rvs.lookup k with
          | none => simp only [hlk] at hok; simp at hok
          | some v =>
            simp only [hlk] at hok
            cases hm : mmatch n p v (vars, fl) with
            | none => simp only [hm] at hok; exact Option.noConfusion hok
            | some y =>
              simp only [hm] at hok
              cases y with
              | error e => simp at hok
              | ok st₁ =>
                obtain ⟨w₁, f₁⟩ := st₁
                have hsub₁ := (ihm p v vars fl hndP hdisjP).2 w₁ f₁ hm
                have hdisjR' : ∀ y ∈ patNamesEntries rest,
                    y ∉ w₁.map Prod.fst := by
                  intro y hy hcy
                  rcases hsub₁ y hcy with hy' | hy'
                  · exact hdisjR y hy hy'
                  · exact hdisjPR hy' hy
                have := (ihe rest rvs w₁ f₁ hndR hdisjR').2 w f hok x hx
                rcases this with hx' | hx'
                · rcases hsub₁ x hx' with hx'' | hx''
                  · exact Or.inl hx''
                  · right
                    rw [hsplit]
                    exact List.mem_append_left _ hx''
                · right
                  rw [hsplit]
                  exact List.mem_append_right _ hx'
    · intro ps vs vars fl hnd hdisj
      cases ps with
      | nil =>
        constructor
        · intro m hc
          simp only [mmatchList] at hc
          simp at hc
        · intro w f hok x hx
          simp only [mmatchList] at hok
          obtain ⟨hw, -⟩ := some_ok_pair hok
          subst hw
          exact Or.inl hx
      | cons p rest =>
        have hsplit : patNamesList (.cons p rest) =
            patNames p ++ patNamesList rest := by simp [patNamesList]
        rw [hsplit] at hnd hdisj
        rw [List.nodup_append] at hnd
        obtain ⟨hndP, hndR, hdisjPR⟩ := hnd
        have hdisjP : ∀ x ∈ patNames p, x ∉ vars.map Prod.fst :=
          fun x hx => hdisj x (List.mem_append_left _ hx)
        have hdisjR : ∀ x ∈ patNamesList rest, x ∉ vars.map Prod.fst :=
          fun x hx => hdisj x (List.mem_append_right _ hx)
        cases vs with
        | nil =>
          constructor
          · intro m hc
            simp only [mmatchList] at hc
            simp at hc
          · intro w f hok x hx
            simp only [mmatchList] at hok
            obtain ⟨hw, -⟩ := some_ok_pair hok
            subst hw
            exact Or.inl hx
        | cons v vtail =>
          constructor
          · intro m hc
            simp only [mmatchList] at hc
            cases hm : mmatch n p v (vars, fl) with
            | none => simp only [hm] at hc; exact Option.noConfusion hc
            | some y =>
              simp only [hm] at hc
              cases y with
              | error e =>
                simp at hc
                rw [hc] at hm
                exact (ihm p v vars fl hndP hdisjP).1 m hm
              | ok st₁ =>
                obtain ⟨w₁, f₁⟩ := st₁
                have hsub₁ := (ihm p v vars fl hndP hdisjP).2 w₁ f₁ hm
                have hdisjR' : ∀ x ∈ patNamesList rest,
                    x ∉ w₁.map Prod.fst := by
                  intro x hx hcx
                  rcases hsub₁ x hcx with hx' | hx'
                  · exact hdisjR x hx hx'
                  · exact hdisjPR hx' hx
                exact (ihl rest vtail w₁ f₁ hndR hdisjR').1 m hc
          · intro w f hok x hx
            simp only [mmatchList] at hok
            cases hm : mmatch n p v (vars, fl) with
            | none => simp only [hm] at hok; exact Option.noConfusion hok
            | some y =>
              simp only [hm] at hok
              cases y with
              | error e => simp at hok
              | ok st₁ =>
                obtain ⟨w₁, f₁⟩ := st₁
                have hsub₁ := (ihm p v vars fl hndP hdisjP).2 w₁ f₁ hm
                have hdisjR' : ∀ y ∈ patNamesList rest,
                    y ∉ w₁.map Prod.fst := by
                  intro y hy hcy
                  rcases hsub₁ y hcy with hy' | hy'
                  · exact hdisjR y hy hy'
                  · exact hdisjPR hy' hy
                have := (ihl rest vtail w₁ f₁ hndR hdisjR').2 w f hok x hx
                rcases this with hx' | hx'
                · rcases hsub₁ x hx' with hx'' | hx''
                  · exact Or.inl hx''
                  · right
                    rw [hsplit]
                    exact List.mem_append_left _ hx''
                · right
                  rw [hsplit]
                  exact List.mem_append_right _ hx'

/-- A pattern containing a float literal never successfully matches: a
successful run would visit the float literal, which raises the
float-match error first. -/
theorem containsFloat_no_success_all : ∀ n : Nat,
    (∀ (p : Pat) (v : Value) (st : St) (w : Variables),
      containsFloat p = true → mmatch n p v st ≠ some (.ok (w, false))) ∧
    (∀ (es : PatEntries) (rvs : List (String × Value)) (st : St)
      (w : Variables), containsFloatEntries es = true →
      mmatchEntries n es rvs st ≠ some (.ok (w, false))) ∧
    (∀ (ps : Pats) (vs : List Value) (st : St) (w : Variables),
      ps.length = vs.length → containsFloatList ps = true →
      mmatchList n ps vs st ≠ some (.ok (w, false))) := by
  intro n
  induction n with
  | zero =>
    refine ⟨?_, ?_, ?_⟩
    · intro _ _ _ _ _ h; exact Option.noConfusion h
    · intro _ _ _ _ _ h; exact Option.noConfusion h
    · intro _ _ _ _ _ _ h; exact Option.noConfusion h
  | succ n ih =>
    obtain ⟨ihm, ihe, ihl⟩ := ih
    refine ⟨?_, ?_, ?_⟩
    · intro p v st w hcf h
      obtain ⟨vars, fl⟩ := st
      cases p with
      | ident name => simp [containsFloat] at hcf
      | lit l =>
        rw [containsFloat] at hcf
        simp only [mmatch, Option.some_inj] at h
        rw [if_pos hcf] at h
        exact Except.noConfusion h
      | variant tag p =>
        cases p with
        | none => simp [containsFloat, containsFloatOpt] at hcf
        | some pp =>
          rw [containsFloat] at hcf
          cases v <;> simp only [mmatch] at h
          case variant vtag vval =>
            by_cases ht : tag = vtag
            · rw [if_pos ht] at h
              exact ihm pp vval (vars, fl) w (by simpa [containsFloatOpt]
                using hcf) h
            · rw [if_neg ht] at h
              obtain ⟨-, hf⟩ := some_ok_pair h
              exact Bool.noConfusion hf
          all_goals
            (obtain ⟨-, hf⟩ := some_ok_pair h
             exact Bool.noConfusion hf)
      | record es rest =>
        rw [containsFloat] at hcf
        cases v <;> simp only [mmatch] at h
        case record rvs =>
          cases he : mmatchEntries n es rvs (vars, fl) with
          | none => simp only [he] at h; exact Option.noConfusion h
          | some y =>
            simp only [he] at h
            cases y with
            | error e => simp at h
            | ok st₁ =>
              obtain ⟨w₁, f₁⟩ := st₁
              rcases Bool.or_eq_true_iff.mp hcf with hfe | hfr
              · cases f₁ with
                | false => exact ihe es rvs (vars, fl) w₁ hfe he
                | true =>
                  cases rest with
                  | none => obtain ⟨-, hf⟩ := some_ok_pair h
                            exact Bool.noConfusion hf
                  | some rp =>
                    have := (mmatch_mono_all n).1 rp
                      (.record (eraseKeys es.keysOf rvs)) w₁ (w, false) h
                    exact absurd this (by simp)
              · cases rest with
                | none => simp [containsFloatOpt] at hfr
                | some rp =>
                  exact ihm rp (.record (eraseKeys es.keysOf rvs)) (w₁, f₁)
                    w (by simpa [containsFloatOpt] using hfr) h
        all_goals
          (obtain ⟨-, hf⟩ := some_ok_pair h
           exact Bool.noConfusion hf)
      | list ps =>
        rw [containsFloat] at hcf
        cases v <;> simp only [mmatch] at h
        case list vs =>
          by_cases hl : ps.length = vs.length
          · rw [if_pos hl] at h
            exact ihl ps vs (vars, fl) w hl hcf h
          · rw [if_neg hl] at h
            obtain ⟨-, hf⟩ := some_ok_pair h
            exact Bool.noConfusion hf
        all_goals
          (obtain ⟨-, hf⟩ := some_ok_pair h
           exact Bool.noConfusion hf)
      | binary l rr =>
        simp only [mmatch] at h
        obtain ⟨-, hf⟩ := some_ok_pair h
        exact Bool.noConfusion hf
    · intro es rvs st w hcf h
      obtain ⟨vars, fl⟩ := st
      cases es with
      | nil => simp [containsFloatEntries] at hcf
      | cons k p rest =>
        rw [containsFloatEntries] at hcf
        simp only [mmatchEntries] at h
        cases hlk : rvs.lookup k with
        | none => simp only [hlk] at h; simp at h
        | some v =>
          simp only [hlk] at h
          cases hm : mmatch n p v (vars, fl) with
          | none => simp only [hm] at h; exact Option.noConfusion h
          | some y =>
            simp only [hm] at h
            cases y with
            | error e => simp at h
            | ok st₁ =>
              obtain ⟨w₁, f₁⟩ := st₁
              rcases Bool.or_eq_true_iff.mp hcf with hfp | hfr
              · cases f₁ with
                | false => exact ihm p v (vars, fl) w₁ hfp hm
                | true =>
                  have := (mmatch_mono_all n).2.1 rest rvs w₁ (w, false) h
                  exact absurd this (by simp)
              · exact ihe rest rvs (w₁, f₁) w hfr h
    · intro ps vs st w hlen hcf h
      obtain ⟨vars, fl⟩ := st
      cases ps with
      | nil => simp [containsFloatList] at hcf
      | cons p rest =>
        cases vs with
        | nil => simp [Pats.length] at hlen
        | cons v vtail =>
          rw [containsFloatList] at hcf
          simp only [mmatchList] at h
          cases hm : mmatch n p v (vars, fl) with
          | none => simp only [hm] at h; exact Option.noConfusion h
          | some y =>
            simp only [hm] at h
            cases y with
            | error e => simp at h
            | ok st₁ =>
              obtain ⟨w₁, f₁⟩ := st₁
              rcases Bool.or_eq_true_iff.mp hcf with hfp | hfr
              · cases f₁ with
                | false => exact ihm p v (vars, fl) w₁ hfp hm
                | true =>
                  have := (mmatch_mono_all n).2.2 rest vtail w₁ (w, false) h
                  exact absurd this (by simp)
              · have hlen' : rest.length = vtail.length := by
                  simpa [Pats.length] using hlen
                exact ihl rest vtail (w₁, f₁) w hlen' hfr h

/-- **C6 (amended).** A float literal pattern at top level fails
value-direction matching with `cannot match on floats` against every
value — it never succeeds, not even on an equal float — and a pattern
containing a float literal anywhere never successfully matches any
value; when a nested float literal is never reached because an enclosing
structure already mismatches, matching reports no-match instead of the
float error. -/
theorem float_literal_match :
    (∀ (n : Nat) (bits : Nat) (v : Value),
      Match (n+1) (.lit (.float bits)) v = some (.error .noFloat)) ∧
    (∀ (n : Nat) (p : Pat) (v : Value) (w : Variables),
      containsFloat p = true → Match n p v ≠ some (.ok (w, false))) := by
  constructor
  · intro n bits v
    simp [Match, mmatch, Lit.isFloat]
  · intro n p v w hcf
    exact (containsFloat_no_success_all n).1 p v ([], false) w hcf

/-- The claim as stated fails: the pattern `#a 1.0` contains a float
literal, yet matched against the value `5` the matcher reports no-match
(the variant layer mismatches before the float literal is reached)
rather than `cannot match on floats`. -/
theorem float_literal_match_counterexample :
    containsFloat (.variant "a" (.some (.lit (.float 1)))) = true ∧
    Match 3 (.variant "a" (.some (.lit (.float 1)))) (.int 5) =
      some (.ok ([], true)) ∧
    Match 3 (.variant "a" (.some (.lit (.float 1)))) (.int 5) ≠
      some (.error .noFloat) := by
  refine ⟨rfl, rfl, fun h => ?_⟩
  have h₂ : Match 3 (.variant "a" (.some (.lit (.float 1)))) (.int 5) =
      some (Except.ok ([], true)) := rfl
  rw [h₂] at h
  simp at h

theorem float_literal_match_witness :
    containsFloat (.lit (.float 1)) = true ∧
    Match 4 (.lit (.float 1)) (.float 1) = some (.error .noFloat) ∧
    Match 4 (.lit (.float 1)) (.float 1) ≠ some (.ok ([], false)) :=
  ⟨rfl, float_literal_match.1 3 1 (.float 1),
    float_literal_match.2 4 (.lit (.float 1)) (.float 1) [] rfl⟩

/-- **C7 (amended).** Value-direction matching is linear: a successful
match binds exactly the pattern's names, which are therefore pairwise
distinct — so a pattern that would bind the same name (other than the
wildcard `_`) twice never successfully matches any value, failing with
`cannot bind <name> twice` whenever the second binding is actually
reached and with no-match when an enclosing mismatch prevents reaching
it; a pattern binding each name at most once never produces this error;
and repeated occurrences of `_` bind nothing and are always allowed. -/
theorem pattern_bindings_linear :
    (∀ (n : Nat) (p : Pat) (v : Value) (w : Variables),
      Match n p v = some (.ok (w, false)) →
      (patNames p).Nodup ∧ w.map Prod.fst = patNames p) ∧
    (∀ (n : Nat) (p : Pat) (v : Value) (m : String),
      (patNames p).Nodup → Match n p v ≠ some (.error (.bindTwice m))) ∧
    (∀ (val : Value) (st : St), set "_" val st = .ok st) := by
  refine ⟨?_, ?_, ?_⟩
  · intro n p v w h
    obtain ⟨hk, hd⟩ := (mmatch_success_all n).1 p v [] false w h
    simp only [List.map_nil, List.nil_append] at hk
    refine ⟨?_, hk⟩
    rw [← hk]
    exact hd (List.nodup_nil)
  · intro n p v m hnd
    exact ((mmatch_linear_all n).1 p v [] false hnd (by simp)).1 m
  · intro val st
    obtain ⟨vars, fl⟩ := st
    simp [set]

/-- The claim as stated fails: the pattern `{ a = x, b = x }` binds `x`
twice, yet matched against the value `5` the matcher reports
no-match — the record layer mismatches before either binding is
reached — rather than `cannot bind x twice`.  (Against an actual record
both bindings are reached and the error does fire.) -/
theorem pattern_bindings_linear_counterexample :
    patNames (.record (.cons "a" (.ident "x")
      (.cons "b" (.ident "x") .nil)) .none) = ["x", "x"] ∧
    Match 3 (.record (.cons "a" (.ident "x")
      (.cons "b" (.ident "x") .nil)) .none) (.int 5) =
      some (.ok ([], true)) ∧
    Match 3 (.record (.cons "a" (.ident "x")
      (.cons "b" (.ident "x") .nil)) .none) (.int 5) ≠
      some (.error (.bindTwice "x")) ∧
    Match 4 (.record (.cons "a" (.ident "x")
      (.cons "b" (.ident "x") .nil)) .none)
      (.record [("a", .int 1), ("b", .int 2)]) =
      some (.error (.bindTwice "x")) := by
  refine ⟨rfl, rfl, fun h => ?_, rfl⟩
  have h₂ : Match 3 (.record (.cons "a" (.ident "x")
      (.cons "b" (.ident "x") .nil)) .none) (.int 5) =
      some (Except.ok ([], true)) := rfl
  rw [h₂] at h
  simp at h

/-- The errors a match-lambda application can produce
(`context.createMatchFunc`, src/eval/eval.go:435-453): a hard match
error propagated from `Match`, the `<source> had no alternative for <v>`
error when every alternative reports no-match, or an error from
evaluating the chosen alternative's body.  Body evaluation is abstract:
each alternative carries its body as a function from the match's
bindings to a result. -/
inductive RunErr : Type where
  | matchErr (e : MatchErr)
  | noAlternative (source : String) (arg : Value)
  | evalErr (msg : String)

/-- `context.createMatchFunc`'s returned closure (src/eval/eval.go:438-450):
try the alternatives in source order; `ErrNoMatch` (the sticky flag)
means try the next one; any other match error aborts the application;
the first alternative whose pattern matches has its body evaluated under
the match's bindings; if the loop ends, fail with
`<source> had no alternative for <arg>`. -/
def applyMatchFunc (fuel : Nat) (source : String)
    (alts : List (Pat × (Variables → Except RunErr Value))) (a : Value) :
    Option (Except RunErr Value) :=
  match alts with
  | [] => some (.error (.noAlternative source a))
  | (p, body) :: rest =>
    match Match fuel p a with
    | none => none
    | some (.error e) => some (.error (.matchErr e))
    | some (.ok (_, true)) => applyMatchFunc fuel source rest a
    | some (.ok (vars, false)) => some (body vars)

theorem applyMatchFunc_skip (fuel : Nat) (source : String) (a : Value) :
    ∀ (pre tail : List (Pat × (Variables → Except RunErr Value))),
    (∀ q ∈ pre, ∃ vars, Match fuel q.1 a = some (.ok (vars, true))) →
    applyMatchFunc fuel source (pre ++ tail) a =
      applyMatchFunc fuel source tail a := by
  intro pre
  induction pre with
  | nil => intro tail _; rfl
  | cons q pre ih =>
    intro tail hpre
    obtain ⟨qp, qb⟩ := q
    obtain ⟨vars, hq⟩ := hpre (qp, qb) (List.mem_cons_self _ _)
    simp only [List.cons_append, applyMatchFunc]
    rw [hq]
    exact ih tail (fun r hr => hpre r (List.mem_cons_of_mem _ hr))

/-- **C5.** Match-lambda application tries alternatives in source order:
with every earlier alternative reporting no-match, a first successful
match evaluates that alternative's body under the pattern's bindings and
later alternatives are ignored; a hard match error at that point aborts
the application with that error; and if every alternative reports
no-match the result is the `<source> had no alternative for <arg>`
error. -/
theorem match_lambda_alternatives (fuel : Nat) (source : String)
    (pre rest : List (Pat × (Variables → Except RunErr Value)))
    (p : Pat) (body : Variables → Except RunErr Value) (a : Value)
    (hpre : ∀ q ∈ pre, ∃ vars, Match fuel q.1 a = some (.ok (vars, true))) :
    (∀ vars, Match fuel p a = some (.ok (vars, false)) →
      applyMatchFunc fuel source (pre ++ (p, body) :: rest) a =
        some (body vars)) ∧
    (∀ e, Match fuel p a = some (.error e) →
      applyMatchFunc fuel source (pre ++ (p, body) :: rest) a =
        some (.error (.matchErr e))) ∧
    ((∀ q ∈ pre ++ (p, body) :: rest, ∃ vars,
        Match fuel q.1 a = some (.ok (vars, true))) →
      applyMatchFunc fuel source (pre ++ (p, body) :: rest) a =
        some (.error (.noAlternative source a))) := by
  refine ⟨?_, ?_, ?_⟩
  · intro vars hm
    rw [applyMatchFunc_skip fuel source a pre _ hpre]
    simp only [applyMatchFunc]
    rw [hm]
  · intro e hm
    rw [applyMatchFunc_skip fuel source a pre _ hpre]
    simp only [applyMatchFunc]
    rw [hm]
  · intro hall
    have h := applyMatchFunc_skip fuel source a
      (pre ++ (p, body) :: rest) [] hall
    rw [List.append_nil] at h
    exact h

theorem match_lambda_alternatives_witness :
    Match 2 (Pat.lit (.int 1)) (.int 5) = some (.ok ([], true)) ∧
    Match 2 (Pat.ident "x") (.int 5) =
      some (.ok ([("x", Value.int 5)], false)) ∧
    applyMatchFunc 2 "f"
      [(Pat.lit (.int 1), fun _ => Except.ok (Value.int 1)),
       (Pat.ident "x", fun _ => Except.ok (Value.int 2))] (.int 5) =
      some (.ok (.int 2)) := by
  refine ⟨rfl, rfl, ?_⟩
  have hpre : ∀ q ∈ [((Pat.lit (.int 1) : Pat),
      (fun _ => Except.ok (Value.int 1) :
        Variables → Except RunErr Value))],
      ∃ vars, Match 2 q.1 (Value.int 5) = some (.ok (vars, true)) := by
    intro q hq
    rw [List.mem_singleton] at hq
    subst hq
    exact ⟨[], rfl⟩
  have h := (match_lambda_alternatives 2 "f"
      [(Pat.lit (.int 1), fun _ => Except.ok (Value.int 1))] []
      (Pat.ident "x") (fun _ => Except.ok (Value.int 2)) (.int 5)
      hpre).1 [("x", Value.int 5)] rfl
  simpa using h

theorem pattern_bindings_linear_witness :
    Match 4 (.list (.cons (.ident "x") (.cons (.ident "y") .nil)))
      (.list [.int 1, .int 2]) =
      some (.ok ([("x", .int 1), ("y", .int 2)], false)) ∧
    ((patNames (.list (.cons (.ident "x") (.cons (.ident "y") .nil)))).Nodup ∧
      ([("x", Value.int 1), ("y", Value.int 2)] :
        Variables).map Prod.fst =
        patNames (.list (.cons (.ident "x") (.cons (.ident "y") .nil)))) :=
  ⟨rfl, pattern_bindings_linear.1 4
    (.list (.cons (.ident "x") (.cons (.ident "y") .nil)))
    (.list [.int 1, .int 2]) [("x", .int 1), ("y", .int 2)] rfl⟩

end evalm

end Scrap
